import Mathlib

/-!
# compiler-gcc.h : a shallow embedding

`src/compiler-gcc.h` is a header of macros over GCC builtins.  Each macro is
embedded as a Lean function whose body follows the macro body; the builtins
the macros expand to (`__builtin_bswapN`, `__builtin_clz`, `__builtin_ctz`,
`__builtin_expect`, access through a `packed` structure) are embedded from
their documented semantics.

Conventions.
* A machine integer of width `w` is a `Nat` reduced `% 2 ^ w`.
* Memory is a `List Nat` of bytes; a pointer into it is an offset.  An access
  that leaves the buffer is undefined in C and yields `none` here.
* The header uses `__builtin_clz` / `__builtin_ctz` (operand `unsigned int`)
  for 32-bit scans and the `ll` variants for 64-bit scans, so it presumes a
  32-bit `unsigned int` and a 64-bit `unsigned long long`.  On those targets
  `__BYTE_ORDER__` is `__ORDER_LITTLE_ENDIAN__` or `__ORDER_BIG_ENDIAN__`.
-/

namespace CompilerGcc

/-! ## Build configuration -/

/-- Layout of multi-byte quantities in memory on the target. -/
inductive ByteOrder where
  | little
  | big
  deriving DecidableEq, Repr

/-- The predefined macros the header tests.  `hasByteOrder` says whether the
compiler predefines `__BYTE_ORDER__` (newer gcc does, older gcc does not). -/
structure Build where
  gnuc : Nat
  gnucMinor : Nat
  hasByteOrder : Bool
  order : ByteOrder
  x86_64 : Bool
  i386 : Bool
  armFeatureUnaligned : Bool
  deriving DecidableEq, Repr

/-- The value of `__ORDER_LITTLE_ENDIAN__`. -/
def ORDER_LITTLE_ENDIAN : Nat := 1234

/-- The value of `__ORDER_BIG_ENDIAN__`. -/
def ORDER_BIG_ENDIAN : Nat := 4321

/-- The value of `__BYTE_ORDER__` when the compiler predefines it: it reflects
the layout of multi-byte quantities in memory. -/
def BYTE_ORDER (c : Build) : Option Nat :=
  if c.hasByteOrder then
    some (match c.order with
      | .little => ORDER_LITTLE_ENDIAN
      | .big => ORDER_BIG_ENDIAN)
  else none

/-- Lines 18-20: `#ifdef __BYTE_ORDER__` /
`#define CPU_IS_LITTLE_ENDIAN() (__BYTE_ORDER__ == __ORDER_LITTLE_ENDIAN__)`.
The result is `none` when the header leaves the macro undefined. -/
def CPU_IS_LITTLE_ENDIAN (c : Build) : Option Bool :=
  match BYTE_ORDER c with
  | some bo => some (bo == ORDER_LITTLE_ENDIAN)
  | none => none

/-! ## Bytes of a machine integer -/

/-- The `k` low-order bytes of `v`, least significant first. -/
def toBytesLE : Nat → Nat → List Nat
  | 0, _ => []
  | k + 1, v => (v % 256) :: toBytesLE k (v / 256)

/-- The integer whose bytes, least significant first, are `bs`. -/
def ofBytesLE : List Nat → Nat
  | [] => 0
  | b :: bs => b + 256 * ofBytesLE bs

/-- Object representation of the `k`-byte unsigned integer `v`, in address
order, on a target of the given byte order. -/
def objectRepr (order : ByteOrder) (k v : Nat) : List Nat :=
  match order with
  | .little => toBytesLE k v
  | .big => (toBytesLE k v).reverse

/-- The unsigned integer whose object representation, in address order, is
`bs`. -/
def objectValue (order : ByteOrder) (bs : List Nat) : Nat :=
  match order with
  | .little => ofBytesLE bs
  | .big => ofBytesLE bs.reverse

/-- A byte buffer: every cell holds a value below 256. -/
def IsBytes (b : List Nat) : Prop := ∀ x ∈ b, x < 256

instance (b : List Nat) : Decidable (IsBytes b) := by
  unfold IsBytes; infer_instance

/-! ## Unaligned access (lines 23-39) -/

/-- The integer types the header's users instantiate `DEFINE_UNALIGNED_TYPE`
with, by width. -/
inductive UType where
  | u16
  | u32
  | u64
  deriving DecidableEq, Repr

/-- Value of `sizeof(type)`. -/
def UType.sizeof : UType → Nat
  | .u16 => 2
  | .u32 => 4
  | .u64 => 8

/-- Width of the type in bits. -/
def UType.bits (type : UType) : Nat := 8 * type.sizeof

/-- Body of `load_##type##_unaligned(const void *p)`:
`return ((const struct type##unaligned *)p)->v;`.
The structure is `packed`, so the member is read from the `sizeof(type)`
bytes starting at `p` whatever the alignment of `p`. -/
def load_type_unaligned (order : ByteOrder) (type : UType)
    (mem : List Nat) (p : Nat) : Option Nat :=
  if p + type.sizeof ≤ mem.length then
    some (objectValue order ((mem.drop p).take type.sizeof))
  else none

/-- Body of `store_##type##_unaligned(type v, void *p)`:
`((struct type##unaligned *)p)->v = v;`.
The argument is converted to `type`; the member occupies the `sizeof(type)`
bytes starting at `p`. -/
def store_type_unaligned (order : ByteOrder) (type : UType)
    (v : Nat) (mem : List Nat) (p : Nat) : Option (List Nat) :=
  if p + type.sizeof ≤ mem.length then
    some (mem.take p ++ objectRepr order type.sizeof (v % 2 ^ type.bits)
      ++ mem.drop (p + type.sizeof))
  else none

/-- Lines 41-43: whether the header defines `UNALIGNED_ACCESS_IS_FAST`. -/
def UNALIGNED_ACCESS_IS_FAST (c : Build) : Bool :=
  c.x86_64 || c.i386 || c.armFeatureUnaligned

/-- The spec's wording of the contract of a load, "the byte-wise shift-combined
assembly of those bytes in the target's byte order": starting from 0, shift
the accumulator left by 8 and OR in the next byte, most significant byte
first. -/
def shiftCombine (order : ByteOrder) (bs : List Nat) : Nat :=
  match order with
  | .big => bs.foldl (fun acc b => (acc <<< 8) ||| b) 0
  | .little => bs.reverse.foldl (fun acc b => (acc <<< 8) ||| b) 0

/-! ## Byte swap (lines 45-52) -/

/-- GCC `__builtin_bswap16 (uint16_t x)`: `x` with the order of its bytes
reversed. -/
def builtin_bswap16 (x : Nat) : Nat :=
  ofBytesLE (toBytesLE 2 (x % 2 ^ 16)).reverse

/-- GCC `__builtin_bswap32 (uint32_t x)`. -/
def builtin_bswap32 (x : Nat) : Nat :=
  ofBytesLE (toBytesLE 4 (x % 2 ^ 32)).reverse

/-- GCC `__builtin_bswap64 (uint64_t x)`. -/
def builtin_bswap64 (x : Nat) : Nat :=
  ofBytesLE (toBytesLE 8 (x % 2 ^ 64)).reverse

/-- Condition of line 45: `(__GNUC__ > 4) || (__GNUC__ == 4 && __GNUC_MINOR__ >= 8)`. -/
def gnucAtLeast_4_8 (c : Build) : Bool :=
  decide (c.gnuc > 4) || (c.gnuc == 4 && decide (c.gnucMinor ≥ 8))

/-- Condition of line 49: `(__GNUC__ > 4) || (__GNUC__ == 4 && __GNUC_MINOR__ >= 3)`. -/
def gnucAtLeast_4_3 (c : Build) : Bool :=
  decide (c.gnuc > 4) || (c.gnuc == 4 && decide (c.gnucMinor ≥ 3))

/-- Lines 45-47: `#define compiler_bswap16 __builtin_bswap16` under its
version test; `none` when the macro is left undefined. -/
def compiler_bswap16 (c : Build) : Option (Nat → Nat) :=
  if gnucAtLeast_4_8 c then some builtin_bswap16 else none

/-- Lines 49-50: `#define compiler_bswap32 __builtin_bswap32`. -/
def compiler_bswap32 (c : Build) : Option (Nat → Nat) :=
  if gnucAtLeast_4_3 c then some builtin_bswap32 else none

/-- Lines 49-51: `#define compiler_bswap64 __builtin_bswap64`. -/
def compiler_bswap64 (c : Build) : Option (Nat → Nat) :=
  if gnucAtLeast_4_3 c then some builtin_bswap64 else none

/-- Byte `i` of `x`, byte 0 being the least significant. -/
def byteAt (x i : Nat) : Nat := x / 256 ^ i % 256

/-! ## Bit scans (lines 54-57) -/

/-- Number of 0-bits of `x` met when scanning down from bit `w - 1`, stopping
at the first 1-bit. -/
def countLeadingZeros : Nat → Nat → Nat
  | 0, _ => 0
  | w + 1, x => if x.testBit w then 0 else 1 + countLeadingZeros w x

/-- Number of 0-bits of `x` met when scanning up from bit 0, stopping at the
first 1-bit or after `w` bits. -/
def countTrailingZeros : Nat → Nat → Nat
  | 0, _ => 0
  | w + 1, x => if x % 2 = 1 then 0 else 1 + countTrailingZeros w (x / 2)

/-- GCC `__builtin_clz (unsigned int x)`: the number of leading 0-bits of `x`,
starting at the most significant bit position; undefined when `x` is 0. -/
def builtin_clz (x : Nat) : Option Nat :=
  if x % 2 ^ 32 = 0 then none else some (countLeadingZeros 32 (x % 2 ^ 32))

/-- GCC `__builtin_clzll (unsigned long long x)`. -/
def builtin_clzll (x : Nat) : Option Nat :=
  if x % 2 ^ 64 = 0 then none else some (countLeadingZeros 64 (x % 2 ^ 64))

/-- GCC `__builtin_ctz (unsigned int x)`: the number of trailing 0-bits of
`x`, starting at the least significant bit position; undefined when `x` is 0. -/
def builtin_ctz (x : Nat) : Option Nat :=
  if x % 2 ^ 32 = 0 then none else some (countTrailingZeros 32 (x % 2 ^ 32))

/-- GCC `__builtin_ctzll (unsigned long long x)`. -/
def builtin_ctzll (x : Nat) : Option Nat :=
  if x % 2 ^ 64 = 0 then none else some (countTrailingZeros 64 (x % 2 ^ 64))

/-- Line 54: `#define compiler_fls32(n) (31 - __builtin_clz(n))`, the
subtraction being done in `int`. -/
def compiler_fls32 (n : Nat) : Option Int :=
  (builtin_clz n).map (fun (z : Nat) => (31 : Int) - Int.ofNat z)

/-- Line 55: `#define compiler_fls64(n) (63 - __builtin_clzll(n))`. -/
def compiler_fls64 (n : Nat) : Option Int :=
  (builtin_clzll n).map (fun (z : Nat) => (63 : Int) - Int.ofNat z)

/-- Line 56: `#define compiler_ffs32(n) __builtin_ctz(n)`. -/
def compiler_ffs32 (n : Nat) : Option Int :=
  (builtin_ctz n).map (fun (z : Nat) => Int.ofNat z)

/-- Line 57: `#define compiler_ffs64(n) __builtin_ctzll(n)`. -/
def compiler_ffs64 (n : Nat) : Option Int :=
  (builtin_ctzll n).map (fun (z : Nat) => Int.ofNat z)

/-! ## Branch hints (lines 11-12) -/

/-- GCC `__builtin_expect (long exp, long c)`: the return value is the value
of `exp`; `c` is only the value the compiler is told to expect. -/
def builtin_expect (exp _c : Int) : Int := exp

/-- C's logical negation `!e`: 1 when `e` compares equal to 0, else 0. -/
def lnot (e : Int) : Int := if e = 0 then 1 else 0

/-- Line 11: `#define likely(expr) __builtin_expect(!!(expr), 1)`. -/
def likely (expr : Int) : Int := builtin_expect (lnot (lnot expr)) 1

/-- Line 12: `#define unlikely(expr) __builtin_expect(!!(expr), 0)`. -/
def unlikely (expr : Int) : Int := builtin_expect (lnot (lnot expr)) 0

/-- C's `if (x) a else b`: the first branch is taken when `x` is non-zero. -/
def ifC {α : Type} (x : Int) (a b : α) : α := if x ≠ 0 then a else b

/-! ## Prefetch hints (lines 13-14) -/

/-- GCC `__builtin_prefetch (const void *addr, int rw)`: a hint to bring the
data at `addr` into cache before it is accessed, `rw` being 0 for a read and
1 for a write.  It "does not generate faults if `addr` is invalid", and on a
target without a prefetch instruction no code is generated.  As a step on
the memory state it returns the resulting memory, `none` standing for a
fault. -/
def builtin_prefetch (_addr _rw : Nat) (mem : List Nat) : Option (List Nat) := some mem

/-- Line 13: `#define prefetchr(addr) __builtin_prefetch((addr), 0)`. -/
def prefetchr (addr : Nat) (mem : List Nat) : Option (List Nat) :=
  builtin_prefetch addr 0 mem

/-- Line 14: `#define prefetchw(addr) __builtin_prefetch((addr), 1)`. -/
def prefetchw (addr : Nat) (mem : List Nat) : Option (List Nat) :=
  builtin_prefetch addr 1 mem

/-! ## Spec-side definitions for the refinement claims -/

/-- The spec's wording of the portable 16-bit swap,
`((x << 8) | (x >> 8))` reduced to 16 bits. -/
def portable_bswap16 (x : Nat) : Nat := ((x <<< 8) ||| (x >>> 8)) % 2 ^ 16

/-- The spec's wording of the portable 32-bit swap,
`((x & 0xFF) << 24) | ((x & 0xFF00) << 8) | ((x >> 8) & 0xFF00) | (x >> 24)`. -/
def portable_bswap32 (x : Nat) : Nat :=
  ((x &&& 0xFF) <<< 24) ||| ((x &&& 0xFF00) <<< 8) ||| ((x >>> 8) &&& 0xFF00) ||| (x >>> 24)

/-- The spec's "analogous eight-term shift-and-mask expression" for 64 bits:
the four low bytes are masked and shifted up, the four high bytes are shifted
down and masked. -/
def portable_bswap64 (x : Nat) : Nat :=
  ((x &&& 0xFF) <<< 56) ||| ((x &&& 0xFF00) <<< 40) ||| ((x &&& 0xFF0000) <<< 24)
    ||| ((x &&& 0xFF000000) <<< 8) ||| ((x >>> 8) &&& 0xFF000000)
    ||| ((x >>> 24) &&& 0xFF0000) ||| ((x >>> 40) &&& 0xFF00) ||| (x >>> 56)

/-- Read `k` cells one at a time, starting at `p`; `none` as soon as a cell
lies outside the buffer. -/
def readBytes (mem : List Nat) : Nat → Nat → Option (List Nat)
  | _, 0 => some []
  | p, k + 1 =>
    match mem[p]? with
    | none => none
    | some b => (readBytes mem (p + 1) k).map (fun bs => b :: bs)

/-- Write the cells `bs` one at a time, starting at `p`; `none` as soon as a
cell lies outside the buffer. -/
def writeBytes : List Nat → Nat → List Nat → Option (List Nat)
  | mem, _, [] => some mem
  | mem, p, b :: bs => if p < mem.length then writeBytes (mem.set p b) (p + 1) bs else none

/-- The bytes of the `k`-byte value `v` in address order, each obtained by a
shift and a mask: byte `i` of `v` is `(v >> 8 i) & 0xFF`. -/
def splitShift (order : ByteOrder) (k v : Nat) : List Nat :=
  match order with
  | .little => (List.range k).map (fun i => (v >>> (8 * i)) &&& 0xFF)
  | .big => ((List.range k).map (fun i => (v >>> (8 * i)) &&& 0xFF)).reverse

/-- The spec's wording of the byte-wise fallback for a load: read the
`sizeof(T)` bytes one at a time and combine them by shifts. -/
def load_bytewise (order : ByteOrder) (type : UType) (mem : List Nat) (p : Nat) : Option Nat :=
  (readBytes mem p type.sizeof).map (shiftCombine order)

/-- The spec's wording of the byte-wise fallback for a store: split the value
by shifts and write the `sizeof(T)` bytes one at a time. -/
def store_bytewise (order : ByteOrder) (type : UType) (v : Nat) (mem : List Nat) (p : Nat) :
    Option (List Nat) :=
  writeBytes mem p (splitShift order type.sizeof (v % 2 ^ type.bits))

/-- The compiler version `(__GNUC__, __GNUC_MINOR__)` of a build. -/
def Build.version (c : Build) : Nat × Nat := (c.gnuc, c.gnucMinor)

/-- The spec's wording "the version is >= major.minor": the pair
`(major, minor)` is at most the build's version in the lexicographic order. -/
def versionAtLeast (v : Nat × Nat) (major minor : Nat) : Prop :=
  toLex (major, minor) ≤ toLex v

instance (v : Nat × Nat) (major minor : Nat) : Decidable (versionAtLeast v major minor) := by
  unfold versionAtLeast; infer_instance

/-! ## Concrete sanity checks of the embedding -/

example : portable_bswap32 0x01020304 = 0x04030201 := by decide
example : portable_bswap64 0x0102030405060708 = 0x0807060504030201 := by decide
example : portable_bswap16 0xaabb = 0xbbaa := by decide
example : load_bytewise .big .u16 [9, 1, 2] 1 = some 0x0102 := by decide
example : load_bytewise .big .u16 [9, 1, 2] 2 = none := by decide
example : store_bytewise .little .u32 0x01020304 [0, 0, 0, 0, 0] 1 = some [0, 4, 3, 2, 1] := by decide
example : store_bytewise .big .u32 0x01020304 [0, 0, 0, 0, 0] 1 = some [0, 1, 2, 3, 4] := by decide
example : store_bytewise .big .u32 0x01020304 [0, 0, 0, 0, 0] 2 = none := by decide
example : versionAtLeast (4, 7) 4 3 ∧ ¬ versionAtLeast (4, 7) 4 8 ∧ versionAtLeast (5, 0) 4 8 := by decide
example : builtin_bswap32 0x01020304 = 0x04030201 := by decide
example : builtin_bswap16 0xaabb = 0xbbaa := by decide
example : compiler_fls32 1 = some 0 := by decide
example : compiler_fls32 0x80000000 = some 31 := by decide
example : compiler_ffs32 8 = some 3 := by decide
example : store_type_unaligned .little .u32 0x01020304 [0, 0, 0, 0, 0] 1 = some [0, 4, 3, 2, 1] := by decide
example : store_type_unaligned .big .u32 0x01020304 [0, 0, 0, 0, 0] 1 = some [0, 1, 2, 3, 4] := by decide
example : load_type_unaligned .big .u16 [9, 1, 2] 1 = some 0x0102 := by decide
example : shiftCombine .little [4, 3, 2, 1] = 0x01020304 := by decide

/-! ## Lemmas on byte lists -/

theorem length_toBytesLE (k v : Nat) : (toBytesLE k v).length = k := by
  induction k generalizing v with
  | zero => rfl
  | succ k ih => simp [toBytesLE, ih]

theorem isBytes_toBytesLE (k v : Nat) : IsBytes (toBytesLE k v) := by
  induction k generalizing v with
  | zero => intro x hx; simp [toBytesLE] at hx
  | succ k ih =>
    intro x hx
    simp only [toBytesLE, List.mem_cons] at hx
    rcases hx with rfl | hx
    · exact Nat.mod_lt _ (by decide)
    · exact ih _ x hx

theorem isBytes_reverse {bs : List Nat} (h : IsBytes bs) : IsBytes bs.reverse := by
  intro x hx
  exact h x (List.mem_reverse.mp hx)

theorem ofBytesLE_toBytesLE (k v : Nat) : ofBytesLE (toBytesLE k v) = v % 256 ^ k := by
  induction k generalizing v with
  | zero => simp [toBytesLE, ofBytesLE, Nat.mod_one]
  | succ k ih =>
    simp only [toBytesLE, ofBytesLE, ih]
    rw [pow_succ, Nat.mul_comm (256 ^ k) 256, Nat.mod_mul]

theorem ofBytesLE_lt (bs : List Nat) (h : IsBytes bs) : ofBytesLE bs < 256 ^ bs.length := by
  induction bs with
  | nil => simp [ofBytesLE]
  | cons b bs ih =>
    have hb : b < 256 := h b (List.mem_cons_self _ _)
    have ht : ofBytesLE bs < 256 ^ bs.length := ih (fun x hx => h x (List.mem_cons_of_mem _ hx))
    simp only [ofBytesLE, List.length_cons, pow_succ]
    nlinarith

theorem toBytesLE_ofBytesLE (bs : List Nat) (h : IsBytes bs) :
    toBytesLE bs.length (ofBytesLE bs) = bs := by
  induction bs with
  | nil => rfl
  | cons b bs ih =>
    have hb : b < 256 := h b (List.mem_cons_self _ _)
    have ht := ih (fun x hx => h x (List.mem_cons_of_mem _ hx))
    simp only [List.length_cons, toBytesLE, ofBytesLE]
    have h1 : (b + 256 * ofBytesLE bs) % 256 = b := by omega
    have h2 : (b + 256 * ofBytesLE bs) / 256 = ofBytesLE bs := by omega
    rw [h1, h2, ht]

theorem length_objectRepr (order : ByteOrder) (k v : Nat) :
    (objectRepr order k v).length = k := by
  cases order <;> simp [objectRepr, length_toBytesLE]

theorem isBytes_objectRepr (order : ByteOrder) (k v : Nat) :
    IsBytes (objectRepr order k v) := by
  cases order
  · exact isBytes_toBytesLE k v
  · exact isBytes_reverse (isBytes_toBytesLE k v)

theorem objectValue_objectRepr (order : ByteOrder) (k v : Nat) :
    objectValue order (objectRepr order k v) = v % 256 ^ k := by
  cases order <;> simp [objectValue, objectRepr, ofBytesLE_toBytesLE]

theorem objectValue_lt (order : ByteOrder) (bs : List Nat) (h : IsBytes bs) :
    objectValue order bs < 256 ^ bs.length := by
  cases order
  · exact ofBytesLE_lt bs h
  · have := ofBytesLE_lt bs.reverse (isBytes_reverse h)
    simpa [objectValue] using this

theorem objectRepr_objectValue (order : ByteOrder) (bs : List Nat) (h : IsBytes bs) :
    objectRepr order bs.length (objectValue order bs) = bs := by
  cases order
  · exact toBytesLE_ofBytesLE bs h
  · have := toBytesLE_ofBytesLE bs.reverse (isBytes_reverse h)
    simp only [List.length_reverse] at this
    simp [objectRepr, objectValue, this]

theorem two_pow_bits (type : UType) : 2 ^ type.bits = 256 ^ type.sizeof := by
  cases type <;> decide

theorem length_window (mem : List Nat) (p k : Nat) (h : p + k ≤ mem.length) :
    ((mem.drop p).take k).length = k := by
  simp only [List.length_take, List.length_drop]
  omega

theorem isBytes_window {mem : List Nat} (h : IsBytes mem) (p k : Nat) :
    IsBytes ((mem.drop p).take k) := by
  intro x hx
  exact h x (List.mem_of_mem_drop (List.mem_of_mem_take hx))

theorem splice_window (mem : List Nat) (p k : Nat) :
    mem.take p ++ (mem.drop p).take k ++ mem.drop (p + k) = mem := by
  rw [List.append_assoc, ← List.drop_drop, List.take_append_drop,
    List.take_append_drop]

/-! ## Unaligned access: round trips and frame -/

/-- C1. For each of the 16-, 32- and 64-bit types, on either byte order, for
every byte buffer and every offset whose access lies within the buffer
(aligned or not), storing back the value just loaded from that offset
succeeds and leaves the buffer unchanged. -/
theorem store_load_unchanged (order : ByteOrder) (type : UType) (b : List Nat) (o : Nat)
    (hb : IsBytes b) (ho : o + type.sizeof ≤ b.length) :
    (load_type_unaligned order type b o).bind
      (fun v => store_type_unaligned order type v b o) = some b := by
  have hw := isBytes_window hb o type.sizeof
  have hl := length_window b o type.sizeof ho
  have hlt := objectValue_lt order _ hw
  rw [hl, ← two_pow_bits] at hlt
  have hr := objectRepr_objectValue order _ hw
  rw [hl] at hr
  simp only [load_type_unaligned, store_type_unaligned, if_pos ho, Option.some_bind,
    Nat.mod_eq_of_lt hlt, hr, splice_window]

/-- Witness for C1: a 32-bit round trip at the odd offset 1 of a 6-byte
buffer, on a big-endian target. -/
theorem store_load_unchanged_witness :
    IsBytes [7, 1, 2, 3, 4, 9] ∧ 1 + UType.sizeof .u32 ≤ [7, 1, 2, 3, 4, 9].length ∧
    (load_type_unaligned .big .u32 [7, 1, 2, 3, 4, 9] 1).bind
      (fun v => store_type_unaligned .big .u32 v [7, 1, 2, 3, 4, 9] 1)
      = some [7, 1, 2, 3, 4, 9] :=
  ⟨by decide, by decide, store_load_unchanged .big .u32 [7, 1, 2, 3, 4, 9] 1 (by decide) (by decide)⟩

theorem ofBytesLE_append (xs ys : List Nat) :
    ofBytesLE (xs ++ ys) = ofBytesLE xs + 256 ^ xs.length * ofBytesLE ys := by
  induction xs with
  | nil => simp [ofBytesLE]
  | cons x xs ih =>
    rw [List.cons_append]
    simp only [ofBytesLE, List.length_cons, pow_succ]
    rw [ih]
    ring

theorem shl8_or_byte (a b : Nat) (hb : b < 256) : (a <<< 8) ||| b = a * 256 + b := by
  have h := Nat.mul_add_lt_is_or (show b < 2 ^ 8 from hb) a
  rw [Nat.shiftLeft_eq, Nat.mul_comm a (2 ^ 8), ← h]

theorem foldl_shl8_or (bs : List Nat) (h : IsBytes bs) (a : Nat) :
    bs.foldl (fun acc b => (acc <<< 8) ||| b) a
      = a * 256 ^ bs.length + ofBytesLE bs.reverse := by
  induction bs generalizing a with
  | nil => simp [ofBytesLE]
  | cons b bs ih =>
    have hb : b < 256 := h b (List.mem_cons_self _ _)
    have ht := ih (fun x hx => h x (List.mem_cons_of_mem _ hx)) ((a <<< 8) ||| b)
    rw [List.foldl_cons, ht, shl8_or_byte a b hb]
    simp only [List.reverse_cons, ofBytesLE_append, List.length_reverse, List.length_cons,
      ofBytesLE, pow_succ]
    ring

theorem shiftCombine_eq_objectValue (order : ByteOrder) (bs : List Nat) (h : IsBytes bs) :
    shiftCombine order bs = objectValue order bs := by
  cases order
  · simp [shiftCombine, objectValue, foldl_shl8_or _ (isBytes_reverse h)]
  · simp [shiftCombine, objectValue, foldl_shl8_or _ h]

theorem window_of_window_zero (mem : List Nat) (p k : Nat) :
    ((((mem.drop p).take k).drop 0).take k) = (mem.drop p).take k := by
  simp

/-- C2. For each of the 16-, 32- and 64-bit types, on either byte order, for
every byte buffer and every in-bounds offset, the load returns a value; that
value is the one loaded at offset 0 from a buffer holding exactly the
`sizeof(T)` bytes at the offset; it is the shift-combined assembly of those
bytes in the target's byte order; and any other in-bounds access, at any
other offset of any other buffer, over the same `sizeof(T)` bytes loads the
same value. -/
theorem load_as_if_copied (order : ByteOrder) (type : UType) (b : List Nat) (o : Nat)
    (hb : IsBytes b) (ho : o + type.sizeof ≤ b.length) :
    load_type_unaligned order type b o
        = load_type_unaligned order type ((b.drop o).take type.sizeof) 0
      ∧ load_type_unaligned order type b o
        = some (shiftCombine order ((b.drop o).take type.sizeof))
      ∧ ∀ (b2 : List Nat) (o2 : Nat), o2 + type.sizeof ≤ b2.length →
          (b2.drop o2).take type.sizeof = (b.drop o).take type.sizeof →
          load_type_unaligned order type b2 o2 = load_type_unaligned order type b o := by
  have hl := length_window b o type.sizeof ho
  refine ⟨?_, ?_, ?_⟩
  · have h0 : 0 + type.sizeof ≤ ((b.drop o).take type.sizeof).length := by omega
    simp only [load_type_unaligned, if_pos ho, if_pos h0, window_of_window_zero]
  · simp only [load_type_unaligned, if_pos ho,
      shiftCombine_eq_objectValue order _ (isBytes_window hb o type.sizeof)]
  · intro b2 o2 ho2 hsame
    simp only [load_type_unaligned, if_pos ho, if_pos ho2, hsame]

/-- Witness for C2: a 32-bit little-endian load at offset 3 of a 7-byte
buffer. -/
theorem load_as_if_copied_witness :
    load_type_unaligned .little .u32 [9, 9, 9, 4, 3, 2, 1] 3
        = load_type_unaligned .little .u32
            (([9, 9, 9, 4, 3, 2, 1].drop 3).take (UType.sizeof .u32)) 0
      ∧ load_type_unaligned .little .u32 [9, 9, 9, 4, 3, 2, 1] 3
        = some (shiftCombine .little (([9, 9, 9, 4, 3, 2, 1].drop 3).take (UType.sizeof .u32)))
      ∧ ∀ (b2 : List Nat) (o2 : Nat), o2 + UType.sizeof .u32 ≤ b2.length →
          (b2.drop o2).take (UType.sizeof .u32)
            = ([9, 9, 9, 4, 3, 2, 1].drop 3).take (UType.sizeof .u32) →
          load_type_unaligned .little .u32 b2 o2
            = load_type_unaligned .little .u32 [9, 9, 9, 4, 3, 2, 1] 3 :=
  load_as_if_copied .little .u32 [9, 9, 9, 4, 3, 2, 1] 3 (by decide) (by decide)

/-- C3. For each of the 16-, 32- and 64-bit types, on either byte order, for
every value of the type, every buffer and every in-bounds offset, the store
succeeds and a load at the same offset right after it returns exactly the
value stored. -/
theorem load_store_inverse (order : ByteOrder) (type : UType) (v : Nat) (b : List Nat) (o : Nat)
    (hv : v < 2 ^ type.bits) (ho : o + type.sizeof ≤ b.length) :
    (store_type_unaligned order type v b o).bind
      (fun b2 => load_type_unaligned order type b2 o) = some v := by
  have hvm : v % 2 ^ type.bits = v := Nat.mod_eq_of_lt hv
  have hlen : o + type.sizeof ≤ (b.take o ++ objectRepr order type.sizeof v
      ++ b.drop (o + type.sizeof)).length := by
    simp only [List.length_append, List.length_take, List.length_drop, length_objectRepr]
    omega
  have hto : (b.take o).length = o := by
    simp only [List.length_take]; omega
  have hwin : ((b.take o ++ objectRepr order type.sizeof v
      ++ b.drop (o + type.sizeof)).drop o).take type.sizeof
      = objectRepr order type.sizeof v := by
    rw [List.append_assoc, List.drop_append_of_le_length (by omega), List.drop_of_length_le (by omega),
      List.nil_append, List.take_append_of_le_length (by simp [length_objectRepr]),
      List.take_of_length_le (by simp [length_objectRepr])]
  simp only [store_type_unaligned, load_type_unaligned, if_pos ho, Option.some_bind, hvm,
    if_pos hlen, hwin, objectValue_objectRepr, ← two_pow_bits]

/-- Witness for C3: storing 0x0102 as a 16-bit value at offset 1 of a 4-byte
buffer and loading it back, little-endian. -/
theorem load_store_inverse_witness :
    (store_type_unaligned .little .u16 0x0102 [5, 6, 7, 8] 1).bind
      (fun b2 => load_type_unaligned .little .u16 b2 1) = some 0x0102 :=
  load_store_inverse .little .u16 0x0102 [5, 6, 7, 8] 1 (by decide) (by decide)

/-! ## Byte swap -/

theorem byteAt_ofBytesLE (bs : List Nat) (h : IsBytes bs) (i : Nat) :
    byteAt (ofBytesLE bs) i = bs.getD i 0 := by
  induction bs generalizing i with
  | nil => simp [byteAt, ofBytesLE]
  | cons b bs ih =>
    have hb : b < 256 := h b (List.mem_cons_self _ _)
    have ht := ih (fun x hx => h x (List.mem_cons_of_mem _ hx))
    cases i with
    | zero =>
      simp only [byteAt, ofBytesLE, pow_zero, Nat.div_one, List.getD_cons_zero]
      omega
    | succ j =>
      have h2 : (b + 256 * ofBytesLE bs) / 256 = ofBytesLE bs := by omega
      simp only [List.getD_cons_succ, ← ht j, byteAt, ofBytesLE]
      rw [pow_succ, Nat.mul_comm (256 ^ j) 256, ← Nat.div_div_eq_div_mul, h2]

theorem getD_toBytesLE (k v i : Nat) (h : i < k) : (toBytesLE k v).getD i 0 = byteAt v i := by
  induction k generalizing v i with
  | zero => omega
  | succ k ih =>
    cases i with
    | zero => simp [toBytesLE, byteAt]
    | succ j =>
      simp only [toBytesLE, List.getD_cons_succ, ih (v / 256) j (by omega), byteAt]
      rw [pow_succ, Nat.mul_comm (256 ^ j) 256, ← Nat.div_div_eq_div_mul]

theorem getD_reverse (l : List Nat) (i : Nat) (h : i < l.length) :
    l.reverse.getD i 0 = l.getD (l.length - 1 - i) 0 := by
  simp only [List.getD_eq_getElem?_getD, List.getElem?_reverse h]

theorem byteAt_swapped (k x i : Nat) (h : i < k) :
    byteAt (ofBytesLE (toBytesLE k x).reverse) i = byteAt x (k - 1 - i) := by
  rw [byteAt_ofBytesLE _ (isBytes_reverse (isBytes_toBytesLE k x)),
    getD_reverse _ _ (by rw [length_toBytesLE]; exact h), length_toBytesLE,
    getD_toBytesLE _ _ _ (by omega)]

theorem swapped_lt (k x : Nat) : ofBytesLE (toBytesLE k x).reverse < 256 ^ k := by
  have := ofBytesLE_lt _ (isBytes_reverse (isBytes_toBytesLE k x))
  simpa [length_toBytesLE] using this

theorem swapped_swapped (k x : Nat) :
    ofBytesLE (toBytesLE k (ofBytesLE (toBytesLE k x).reverse)).reverse = x % 256 ^ k := by
  have h := toBytesLE_ofBytesLE _ (isBytes_reverse (isBytes_toBytesLE k x))
  simp only [List.length_reverse, length_toBytesLE] at h
  rw [h, List.reverse_reverse, ofBytesLE_toBytesLE]

theorem builtin_bswap16_lt (x : Nat) : builtin_bswap16 x < 2 ^ 16 := swapped_lt 2 _

theorem builtin_bswap32_lt (x : Nat) : builtin_bswap32 x < 2 ^ 32 := swapped_lt 4 _

theorem builtin_bswap64_lt (x : Nat) : builtin_bswap64 x < 2 ^ 64 := swapped_lt 8 _

theorem builtin_bswap16_twice (x : Nat) (hx : x < 2 ^ 16) :
    builtin_bswap16 (builtin_bswap16 x) = x := by
  have h1 := Nat.mod_eq_of_lt (builtin_bswap16_lt x)
  unfold builtin_bswap16 at h1 ⊢
  rw [h1, swapped_swapped, Nat.mod_eq_of_lt hx]
  exact Nat.mod_eq_of_lt hx

theorem builtin_bswap32_twice (x : Nat) (hx : x < 2 ^ 32) :
    builtin_bswap32 (builtin_bswap32 x) = x := by
  have h1 := Nat.mod_eq_of_lt (builtin_bswap32_lt x)
  unfold builtin_bswap32 at h1 ⊢
  rw [h1, swapped_swapped, Nat.mod_eq_of_lt hx]
  exact Nat.mod_eq_of_lt hx

theorem builtin_bswap64_twice (x : Nat) (hx : x < 2 ^ 64) :
    builtin_bswap64 (builtin_bswap64 x) = x := by
  have h1 := Nat.mod_eq_of_lt (builtin_bswap64_lt x)
  unfold builtin_bswap64 at h1 ⊢
  rw [h1, swapped_swapped, Nat.mod_eq_of_lt hx]
  exact Nat.mod_eq_of_lt hx

theorem compiler_bswap16_eq {c : Build} {f : Nat → Nat} (h : compiler_bswap16 c = some f) :
    f = builtin_bswap16 := by
  unfold compiler_bswap16 at h
  split at h
  · exact (Option.some.inj h).symm
  · exact absurd h (by simp)

theorem compiler_bswap32_eq {c : Build} {f : Nat → Nat} (h : compiler_bswap32 c = some f) :
    f = builtin_bswap32 := by
  unfold compiler_bswap32 at h
  split at h
  · exact (Option.some.inj h).symm
  · exact absurd h (by simp)

theorem compiler_bswap64_eq {c : Build} {f : Nat → Nat} (h : compiler_bswap64 c = some f) :
    f = builtin_bswap64 := by
  unfold compiler_bswap64 at h
  split at h
  · exact (Option.some.inj h).symm
  · exact absurd h (by simp)

/-- C4. On every build, each of `compiler_bswap16`, `compiler_bswap32` and
`compiler_bswap64` that the header defines is an involution on the values of
its width: swapping twice gives back `x`. -/
theorem bswap_involution (c : Build) :
    (∀ f, compiler_bswap16 c = some f → ∀ x, x < 2 ^ 16 → f (f x) = x)
    ∧ (∀ f, compiler_bswap32 c = some f → ∀ x, x < 2 ^ 32 → f (f x) = x)
    ∧ (∀ f, compiler_bswap64 c = some f → ∀ x, x < 2 ^ 64 → f (f x) = x) := by
  refine ⟨?_, ?_, ?_⟩
  · intro f hf x hx
    rw [compiler_bswap16_eq hf]
    exact builtin_bswap16_twice x hx
  · intro f hf x hx
    rw [compiler_bswap32_eq hf]
    exact builtin_bswap32_twice x hx
  · intro f hf x hx
    rw [compiler_bswap64_eq hf]
    exact builtin_bswap64_twice x hx

/-- Witness for C4: on a gcc 4.9 build all three macros are defined, and
each swap applied twice to a sample value returns it. -/
theorem bswap_involution_witness :
    compiler_bswap16 ⟨4, 9, true, .little, true, false, false⟩ = some builtin_bswap16
    ∧ builtin_bswap16 (builtin_bswap16 0xaabb) = 0xaabb
    ∧ builtin_bswap32 (builtin_bswap32 0x01020304) = 0x01020304
    ∧ builtin_bswap64 (builtin_bswap64 0x0102030405060708) = 0x0102030405060708 :=
  ⟨rfl,
   (bswap_involution ⟨4, 9, true, .little, true, false, false⟩).1 builtin_bswap16 rfl
     0xaabb (by decide),
   (bswap_involution ⟨4, 9, true, .little, true, false, false⟩).2.1 builtin_bswap32 rfl
     0x01020304 (by decide),
   (bswap_involution ⟨4, 9, true, .little, true, false, false⟩).2.2 builtin_bswap64 rfl
     0x0102030405060708 (by decide)⟩

/-- C5. On every build, each of `compiler_bswap16/32/64` that the header
defines is a total function that reverses the byte order of its argument:
for every `x` of the width (`k` bytes) the result is again of the width and
its byte `i` is byte `k - 1 - i` of `x`, for every `i < k`; in particular
`compiler_bswap32(0x01020304) == 0x04030201`. -/
theorem bswap_reverses_bytes (c : Build) :
    (∀ f, compiler_bswap16 c = some f → ∀ x, x < 2 ^ 16 →
        f x < 2 ^ 16 ∧ ∀ i, i < 2 → byteAt (f x) i = byteAt x (2 - 1 - i))
    ∧ (∀ f, compiler_bswap32 c = some f → ∀ x, x < 2 ^ 32 →
        f x < 2 ^ 32 ∧ ∀ i, i < 4 → byteAt (f x) i = byteAt x (4 - 1 - i))
    ∧ (∀ f, compiler_bswap64 c = some f → ∀ x, x < 2 ^ 64 →
        f x < 2 ^ 64 ∧ ∀ i, i < 8 → byteAt (f x) i = byteAt x (8 - 1 - i))
    ∧ (∀ f, compiler_bswap32 c = some f → f 0x01020304 = 0x04030201) := by
  refine ⟨?_, ?_, ?_, ?_⟩
  · intro f hf x hx
    rw [compiler_bswap16_eq hf]
    refine ⟨builtin_bswap16_lt x, fun i hi => ?_⟩
    unfold builtin_bswap16
    rw [Nat.mod_eq_of_lt hx]
    exact byteAt_swapped 2 x i hi
  · intro f hf x hx
    rw [compiler_bswap32_eq hf]
    refine ⟨builtin_bswap32_lt x, fun i hi => ?_⟩
    unfold builtin_bswap32
    rw [Nat.mod_eq_of_lt hx]
    exact byteAt_swapped 4 x i hi
  · intro f hf x hx
    rw [compiler_bswap64_eq hf]
    refine ⟨builtin_bswap64_lt x, fun i hi => ?_⟩
    unfold builtin_bswap64
    rw [Nat.mod_eq_of_lt hx]
    exact byteAt_swapped 8 x i hi
  · intro f hf
    rw [compiler_bswap32_eq hf]
    decide

/-- Witness for C5: on a gcc 4.9 build, the low byte of the 16-bit swap of
0xaabb is the high byte of 0xaabb, and the 32-bit swap of 0x01020304 is
0x04030201. -/
theorem bswap_reverses_bytes_witness :
    compiler_bswap32 ⟨4, 9, true, .big, false, false, false⟩ = some builtin_bswap32
    ∧ byteAt (builtin_bswap16 0xaabb) 0 = byteAt 0xaabb (2 - 1 - 0)
    ∧ builtin_bswap32 0x01020304 = 0x04030201 :=
  ⟨rfl,
   ((bswap_reverses_bytes ⟨4, 9, true, .big, false, false, false⟩).1 builtin_bswap16 rfl
     0xaabb (by decide)).2 0 (by decide),
   (bswap_reverses_bytes ⟨4, 9, true, .big, false, false, false⟩).2.2.2 builtin_bswap32 rfl⟩

/-! ## Bit scans -/

theorem lt_two_pow_of_testBit_false (x w : Nat) (hx : x < 2 ^ (w + 1))
    (hb : x.testBit w = false) : x < 2 ^ w := by
  rw [Nat.testBit_to_div_mod, decide_eq_false_iff_not] at hb
  have h2 : x / 2 ^ w < 2 := by
    apply Nat.div_lt_of_lt_mul
    rw [pow_succ] at hx
    omega
  have h0 : x / 2 ^ w = 0 := by
    generalize x / 2 ^ w = q at hb h2
    omega
  exact (Nat.div_eq_zero_iff (Nat.two_pow_pos w)).mp h0

theorem countLeadingZeros_spec (w x : Nat) (h0 : 0 < x) (hx : x < 2 ^ w) :
    countLeadingZeros w x < w
    ∧ x.testBit (w - 1 - countLeadingZeros w x) = true
    ∧ x < 2 ^ (w - countLeadingZeros w x) := by
  induction w with
  | zero => simp at hx; omega
  | succ w ih =>
    unfold countLeadingZeros
    by_cases hb : x.testBit w = true
    · simp [hb, hx]
    · have hb2 : x.testBit w = false := by simpa using hb
      obtain ⟨h1, h2, h3⟩ := ih (lt_two_pow_of_testBit_false x w hx hb2)
      simp only [hb2, Bool.false_eq_true, if_false]
      refine ⟨by omega, ?_, ?_⟩
      · have e : w + 1 - 1 - (1 + countLeadingZeros w x) = w - 1 - countLeadingZeros w x := by
          omega
        rw [e]; exact h2
      · have e : w + 1 - (1 + countLeadingZeros w x) = w - countLeadingZeros w x := by omega
        rw [e]; exact h3

theorem countTrailingZeros_spec (w x : Nat) (h0 : 0 < x) (hx : x < 2 ^ w) :
    countTrailingZeros w x < w
    ∧ x.testBit (countTrailingZeros w x) = true
    ∧ (∀ i, i < countTrailingZeros w x → x.testBit i = false)
    ∧ 2 ^ countTrailingZeros w x ∣ x
    ∧ ¬ 2 ^ (countTrailingZeros w x + 1) ∣ x := by
  induction w generalizing x with
  | zero => simp at hx; omega
  | succ w ih =>
    unfold countTrailingZeros
    by_cases hb : x % 2 = 1
    · simp only [hb, if_true]
      refine ⟨by omega, ?_, ?_, ?_, ?_⟩
      · simp [Nat.testBit_zero, hb]
      · intro i hi; omega
      · simp
      · simp only [zero_add, pow_one, Nat.dvd_iff_mod_eq_zero]; omega
    · have hx2 : x / 2 < 2 ^ w := by
        rw [pow_succ] at hx; omega
      obtain ⟨h1, h2, h3, h4, h5⟩ := ih (x / 2) (by omega) hx2
      have hxe : x = 2 * (x / 2) := by omega
      simp only [hb, if_false]
      refine ⟨by omega, ?_, ?_, ?_, ?_⟩
      · rw [Nat.add_comm, Nat.testBit_succ]; exact h2
      · intro i hi
        cases i with
        | zero => simp [Nat.testBit_zero]; omega
        | succ j => rw [Nat.testBit_succ]; exact h3 j (by omega)
      · have hd := Nat.mul_dvd_mul_left 2 h4
        rw [← hxe] at hd
        rw [Nat.add_comm, pow_succ, Nat.mul_comm]
        exact hd
      · intro hd
        apply h5
        rw [Nat.add_comm 1, pow_succ, Nat.mul_comm] at hd
        have hd2 : 2 * 2 ^ (countTrailingZeros w (x / 2) + 1) ∣ 2 * (x / 2) := by
          rw [← hxe]; exact hd
        exact Nat.dvd_of_mul_dvd_mul_left (by decide : 0 < 2) hd2

theorem builtin_clz_eq (n : Nat) (h0 : 0 < n) (hn : n < 2 ^ 32) :
    builtin_clz n = some (countLeadingZeros 32 n) := by
  have hm : n % 2 ^ 32 = n := Nat.mod_eq_of_lt hn
  have hne : ¬ n % 2 ^ 32 = 0 := by omega
  unfold builtin_clz
  rw [if_neg hne, hm]

theorem builtin_clzll_eq (n : Nat) (h0 : 0 < n) (hn : n < 2 ^ 64) :
    builtin_clzll n = some (countLeadingZeros 64 n) := by
  have hm : n % 2 ^ 64 = n := Nat.mod_eq_of_lt hn
  have hne : ¬ n % 2 ^ 64 = 0 := by omega
  unfold builtin_clzll
  rw [if_neg hne, hm]

theorem builtin_ctz_eq (n : Nat) (h0 : 0 < n) (hn : n < 2 ^ 32) :
    builtin_ctz n = some (countTrailingZeros 32 n) := by
  have hm : n % 2 ^ 32 = n := Nat.mod_eq_of_lt hn
  have hne : ¬ n % 2 ^ 32 = 0 := by omega
  unfold builtin_ctz
  rw [if_neg hne, hm]

theorem builtin_ctzll_eq (n : Nat) (h0 : 0 < n) (hn : n < 2 ^ 64) :
    builtin_ctzll n = some (countTrailingZeros 64 n) := by
  have hm : n % 2 ^ 64 = n := Nat.mod_eq_of_lt hn
  have hne : ¬ n % 2 ^ 64 = 0 := by omega
  unfold builtin_ctzll
  rw [if_neg hne, hm]

/-- C6. For every non-zero 32-bit `n`, `compiler_fls32(n)` is defined and is
`31 - __builtin_clz(n)`, an index `r` with bit `r` of `n` set and
`2^r ≤ n < 2^(r+1)`; likewise `compiler_fls64(n) = 63 - __builtin_clzll(n)`
for every non-zero 64-bit `n`.  Moreover `compiler_fls32(1) = 0` and
`compiler_fls32(0x80000000) = 31`. -/
theorem fls_is_msb_index :
    (∀ n, 0 < n → n < 2 ^ 32 → ∃ r z : Nat,
        compiler_fls32 n = some (r : Int) ∧ builtin_clz n = some z ∧ (r : Int) = 31 - (z : Int)
        ∧ n.testBit r = true ∧ 2 ^ r ≤ n ∧ n < 2 ^ (r + 1))
    ∧ (∀ n, 0 < n → n < 2 ^ 64 → ∃ r z : Nat,
        compiler_fls64 n = some (r : Int) ∧ builtin_clzll n = some z ∧ (r : Int) = 63 - (z : Int)
        ∧ n.testBit r = true ∧ 2 ^ r ≤ n ∧ n < 2 ^ (r + 1))
    ∧ compiler_fls32 1 = some 0
    ∧ compiler_fls32 0x80000000 = some 31 := by
  refine ⟨?_, ?_, by decide, by decide⟩
  · intro n h0 hn
    obtain ⟨h1, h2, h3⟩ := countLeadingZeros_spec 32 n h0 hn
    refine ⟨31 - countLeadingZeros 32 n, countLeadingZeros 32 n, ?_, ?_, ?_, ?_, ?_, ?_⟩
    · simp only [compiler_fls32, builtin_clz_eq n h0 hn, Option.map_some', Int.ofNat_eq_coe]
      congr 1; omega
    · exact builtin_clz_eq n h0 hn
    · omega
    · exact h2
    · exact Nat.testBit_implies_ge h2
    · have e : 31 - countLeadingZeros 32 n + 1 = 32 - countLeadingZeros 32 n := by omega
      rw [e]; exact h3
  · intro n h0 hn
    obtain ⟨h1, h2, h3⟩ := countLeadingZeros_spec 64 n h0 hn
    refine ⟨63 - countLeadingZeros 64 n, countLeadingZeros 64 n, ?_, ?_, ?_, ?_, ?_, ?_⟩
    · simp only [compiler_fls64, builtin_clzll_eq n h0 hn, Option.map_some', Int.ofNat_eq_coe]
      congr 1; omega
    · exact builtin_clzll_eq n h0 hn
    · omega
    · exact h2
    · exact Nat.testBit_implies_ge h2
    · have e : 63 - countLeadingZeros 64 n + 1 = 64 - countLeadingZeros 64 n := by omega
      rw [e]; exact h3

/-- Witness for C6: at `n = 0x00012345` the 32-bit scan yields an index
whose bit is set and that brackets `n` between consecutive powers of two. -/
theorem fls_is_msb_index_witness :
    ∃ r z : Nat, compiler_fls32 0x12345 = some (r : Int) ∧ builtin_clz 0x12345 = some z
      ∧ (r : Int) = 31 - (z : Int)
      ∧ Nat.testBit 0x12345 r = true ∧ 2 ^ r ≤ 0x12345 ∧ 0x12345 < 2 ^ (r + 1) :=
  fls_is_msb_index.1 0x12345 (by decide) (by decide)

/-- C7. For every non-zero 32-bit `n`, `compiler_ffs32(n)` is defined and is
`__builtin_ctz(n)`, an index `r` with bit `r` of `n` set, every bit below `r`
clear, `2^r` dividing `n` and `2^(r+1)` not dividing `n`; likewise
`compiler_ffs64(n) = __builtin_ctzll(n)` for every non-zero 64-bit `n`.
Moreover `compiler_ffs32(0x80000000) = 31` and `compiler_ffs32(8) = 3`. -/
theorem ffs_is_lsb_index :
    (∀ n, 0 < n → n < 2 ^ 32 → ∃ r : Nat,
        compiler_ffs32 n = some (r : Int) ∧ builtin_ctz n = some r
        ∧ n.testBit r = true ∧ (∀ i, i < r → n.testBit i = false)
        ∧ 2 ^ r ∣ n ∧ ¬ 2 ^ (r + 1) ∣ n)
    ∧ (∀ n, 0 < n → n < 2 ^ 64 → ∃ r : Nat,
        compiler_ffs64 n = some (r : Int) ∧ builtin_ctzll n = some r
        ∧ n.testBit r = true ∧ (∀ i, i < r → n.testBit i = false)
        ∧ 2 ^ r ∣ n ∧ ¬ 2 ^ (r + 1) ∣ n)
    ∧ compiler_ffs32 0x80000000 = some 31
    ∧ compiler_ffs32 8 = some 3 := by
  refine ⟨?_, ?_, by decide, by decide⟩
  · intro n h0 hn
    obtain ⟨_, h2, h3, h4, h5⟩ := countTrailingZeros_spec 32 n h0 hn
    refine ⟨countTrailingZeros 32 n, ?_, ?_, h2, h3, h4, h5⟩
    · simp only [compiler_ffs32, builtin_ctz_eq n h0 hn, Option.map_some', Int.ofNat_eq_coe]
    · exact builtin_ctz_eq n h0 hn
  · intro n h0 hn
    obtain ⟨_, h2, h3, h4, h5⟩ := countTrailingZeros_spec 64 n h0 hn
    refine ⟨countTrailingZeros 64 n, ?_, ?_, h2, h3, h4, h5⟩
    · simp only [compiler_ffs64, builtin_ctzll_eq n h0 hn, Option.map_some', Int.ofNat_eq_coe]
    · exact builtin_ctzll_eq n h0 hn

/-- Witness for C7: at `n = 0x00012340` the 32-bit scan yields an index
whose bit is set, below which every bit is clear. -/
theorem ffs_is_lsb_index_witness :
    ∃ r : Nat, compiler_ffs32 0x12340 = some (r : Int) ∧ builtin_ctz 0x12340 = some r
      ∧ Nat.testBit 0x12340 r = true ∧ (∀ i, i < r → Nat.testBit 0x12340 i = false)
      ∧ 2 ^ r ∣ 0x12340 ∧ ¬ 2 ^ (r + 1) ∣ 0x12340 :=
  ffs_is_lsb_index.1 0x12340 (by decide) (by decide)

/-! ## Frame of a store, endianness constant, branch hints -/

/-- C8. For each of the 16-, 32- and 64-bit types, on either byte order, for
every buffer, in-bounds offset and value, the store succeeds, the buffer
keeps its length, and every cell at an index outside `[o, o + sizeof(T))`
holds what it held before. -/
theorem store_frame (order : ByteOrder) (type : UType) (v : Nat) (b : List Nat) (o : Nat)
    (ho : o + type.sizeof ≤ b.length) :
    ∃ b2, store_type_unaligned order type v b o = some b2
      ∧ b2.length = b.length
      ∧ ∀ i, (i < o ∨ o + type.sizeof ≤ i) → b2[i]? = b[i]? := by
  refine ⟨_, if_pos ho, ?_, ?_⟩
  · simp only [List.length_append, List.length_take, List.length_drop, length_objectRepr]
    omega
  · intro i hi
    have hto : (b.take o).length = o := by
      simp only [List.length_take]; omega
    rcases hi with hi | hi
    · rw [List.append_assoc, List.getElem?_append_left (by omega), List.getElem?_take_of_lt hi]
    · rw [List.getElem?_append_right (by
          simp only [List.length_append, length_objectRepr, hto]; omega)]
      simp only [List.length_append, length_objectRepr, hto, List.getElem?_drop]
      congr 1
      omega

/-- Witness for C8: a 16-bit big-endian store at offset 1 of a 4-byte
buffer. -/
theorem store_frame_witness :
    ∃ b2, store_type_unaligned .big .u16 0xaabb [1, 2, 3, 4] 1 = some b2
      ∧ b2.length = [1, 2, 3, 4].length
      ∧ ∀ i, (i < 1 ∨ 1 + UType.sizeof .u16 ≤ i) → b2[i]? = [1, 2, 3, 4][i]? :=
  store_frame .big .u16 0xaabb [1, 2, 3, 4] 1 (by decide)

/-- C9. On every build for which the header defines `CPU_IS_LITTLE_ENDIAN()`,
its value depends on the build alone, and it is true exactly when an
unaligned 32-bit store of 0x01020304, into any buffer at any in-bounds
offset, leaves the four bytes 04 03 02 01 at that offset, least significant
byte first. -/
theorem cpu_is_little_endian_matches_memory (c : Build) (le : Bool)
    (hdef : CPU_IS_LITTLE_ENDIAN c = some le) (b : List Nat) (o : Nat)
    (ho : o + UType.sizeof .u32 ≤ b.length) :
    le = true ↔
      (store_type_unaligned c.order .u32 0x01020304 b o).map
        (fun b2 => (b2.drop o).take (UType.sizeof .u32)) = some [0x04, 0x03, 0x02, 0x01] := by
  have hto : (b.take o).length = o := by
    simp only [List.length_take]; omega
  have hwin : ∀ r : List Nat, r.length = UType.sizeof .u32 →
      ((b.take o ++ r ++ b.drop (o + UType.sizeof .u32)).drop o).take (UType.sizeof .u32) = r := by
    intro r hr
    rw [List.append_assoc, List.drop_append_of_le_length (by omega),
      List.drop_of_length_le (by omega), List.nil_append,
      List.take_append_of_le_length (by omega), List.take_of_length_le (by omega)]
  simp only [store_type_unaligned, if_pos ho, Option.map_some',
    hwin _ (length_objectRepr c.order _ _), Option.some.injEq]
  unfold CPU_IS_LITTLE_ENDIAN BYTE_ORDER at hdef
  cases hbo : c.hasByteOrder
  · simp [hbo] at hdef
  · cases hord : c.order
    · simp only [hbo, hord, if_true, Option.some.injEq] at hdef
      subst hdef
      decide
    · simp only [hbo, hord, if_true, Option.some.injEq] at hdef
      subst hdef
      decide

/-- Witness for C9: a little-endian build that predefines `__BYTE_ORDER__`;
the constant is true and the stored bytes are 04 03 02 01. -/
theorem cpu_is_little_endian_matches_memory_witness :
    CPU_IS_LITTLE_ENDIAN ⟨4, 9, true, .little, true, false, false⟩ = some true
    ∧ (true = true ↔
      (store_type_unaligned .little .u32 0x01020304 [0, 0, 0, 0, 0, 0] 1).map
        (fun b2 => (b2.drop 1).take (UType.sizeof .u32)) = some [0x04, 0x03, 0x02, 0x01]) :=
  ⟨rfl, cpu_is_little_endian_matches_memory ⟨4, 9, true, .little, true, false, false⟩ true rfl
    [0, 0, 0, 0, 0, 0] 1 (by decide)⟩

/-- C10. For every integer value `e` of the condition, `likely(e)` and
`unlikely(e)` both evaluate to `!!e` (1 when `e` is non-zero, 0 when `e` is
zero), a conditional on either takes the same branch as a conditional on `e`
itself, and `likely(e) == unlikely(e)`. -/
theorem likely_unlikely_preserve (e : Int) :
    likely e = (if e ≠ 0 then 1 else 0)
    ∧ unlikely e = (if e ≠ 0 then 1 else 0)
    ∧ (∀ (α : Type) (a b : α), ifC (likely e) a b = ifC e a b)
    ∧ (∀ (α : Type) (a b : α), ifC (unlikely e) a b = ifC e a b)
    ∧ likely e = unlikely e := by
  by_cases h : e = 0
  · subst h
    simp [likely, unlikely, builtin_expect, lnot, ifC]
  · simp [likely, unlikely, builtin_expect, lnot, ifC, h]

/-! ## Prefetch hints -/

/-- C11. For every memory state and every address, inside the buffer or not,
`prefetchr(addr)` and `prefetchw(addr)` do not fault and leave the memory as
it was, so every unaligned load and store performed after a prefetch gives
what it gives without it; this holds also at addresses where a load itself
would be out of bounds. -/
theorem prefetch_no_effect (mem : List Nat) (addr : Nat) :
    prefetchr addr mem = some mem
    ∧ prefetchw addr mem = some mem
    ∧ (∀ (order : ByteOrder) (type : UType) (p : Nat),
        (prefetchr addr mem).bind (fun m => load_type_unaligned order type m p)
          = load_type_unaligned order type mem p
        ∧ (prefetchw addr mem).bind (fun m => load_type_unaligned order type m p)
          = load_type_unaligned order type mem p)
    ∧ (∀ (order : ByteOrder) (type : UType) (v p : Nat),
        (prefetchr addr mem).bind (fun m => store_type_unaligned order type v m p)
          = store_type_unaligned order type v mem p
        ∧ (prefetchw addr mem).bind (fun m => store_type_unaligned order type v m p)
          = store_type_unaligned order type v mem p)
    ∧ (mem.length ≤ addr → ∀ (order : ByteOrder) (type : UType),
        load_type_unaligned order type mem addr = none
        ∧ prefetchr addr mem = some mem ∧ prefetchw addr mem = some mem) := by
  refine ⟨rfl, rfl, fun _ _ _ => ⟨rfl, rfl⟩, fun _ _ _ _ => ⟨rfl, rfl⟩, ?_⟩
  intro h order type
  refine ⟨?_, rfl, rfl⟩
  unfold load_type_unaligned
  have hs : 0 < type.sizeof := by cases type <;> decide
  rw [if_neg (by omega)]

/-- Witness for C11: at address 7, outside a 3-byte buffer, a load is out of
bounds while both prefetches leave the buffer as it was. -/
theorem prefetch_no_effect_witness :
    load_type_unaligned .little .u16 [1, 2, 3] 7 = none
    ∧ prefetchr 7 [1, 2, 3] = some [1, 2, 3] ∧ prefetchw 7 [1, 2, 3] = some [1, 2, 3] :=
  (prefetch_no_effect [1, 2, 3] 7).2.2.2.2 (by decide) .little .u16

/-! ## Portable byte swaps -/

theorem or_eq_add_of_mod (a b i : Nat) (ha : a % 2 ^ i = 0) (hb : b < 2 ^ i) :
    a ||| b = a + b := by
  have h := Nat.mul_add_lt_is_or hb (a / 2 ^ i)
  rw [Nat.mul_div_cancel' (Nat.dvd_of_mod_eq_zero ha)] at h
  exact h.symm

theorem and_shiftLeft_mask (x m k : Nat) : x &&& (m <<< k) = ((x >>> k) &&& m) <<< k := by
  apply Nat.eq_of_testBit_eq
  intro j
  simp only [Nat.testBit_and, Nat.testBit_shiftLeft, Nat.testBit_shiftRight]
  by_cases hj : k ≤ j
  · have e : k + (j - k) = j := by omega
    simp [hj, e, Bool.and_comm]
  · simp [hj]

theorem and_255 (y : Nat) : y &&& 0xFF = y % 256 := Nat.and_pow_two_sub_one_eq_mod y 8

theorem and_mask_byte (y k : Nat) : y &&& (0xFF <<< k) = y / 2 ^ k % 256 * 2 ^ k := by
  rw [and_shiftLeft_mask, and_255, Nat.shiftLeft_eq, Nat.shiftRight_eq_div_pow]

theorem or4_eq_add (a b c d : Nat)
    (ha : a % 2 ^ 24 = 0) (hb : b < 2 ^ 24)
    (hab : (a + b) % 2 ^ 16 = 0) (hc : c < 2 ^ 16)
    (habc : (a + b + c) % 2 ^ 8 = 0) (hd : d < 2 ^ 8) :
    a ||| b ||| c ||| d = a + b + c + d := by
  rw [or_eq_add_of_mod a b 24 ha hb, or_eq_add_of_mod (a + b) c 16 hab hc,
    or_eq_add_of_mod (a + b + c) d 8 habc hd]

theorem or8_eq_add (a b c d e f g h : Nat)
    (h1 : a % 2 ^ 56 = 0) (h1b : b < 2 ^ 56)
    (h2 : (a + b) % 2 ^ 48 = 0) (h2b : c < 2 ^ 48)
    (h3 : (a + b + c) % 2 ^ 40 = 0) (h3b : d < 2 ^ 40)
    (h4 : (a + b + c + d) % 2 ^ 32 = 0) (h4b : e < 2 ^ 32)
    (h5 : (a + b + c + d + e) % 2 ^ 24 = 0) (h5b : f < 2 ^ 24)
    (h6 : (a + b + c + d + e + f) % 2 ^ 16 = 0) (h6b : g < 2 ^ 16)
    (h7 : (a + b + c + d + e + f + g) % 2 ^ 8 = 0) (h7b : h < 2 ^ 8) :
    a ||| b ||| c ||| d ||| e ||| f ||| g ||| h = a + b + c + d + e + f + g + h := by
  rw [or_eq_add_of_mod a b 56 h1 h1b, or_eq_add_of_mod (a + b) c 48 h2 h2b,
    or_eq_add_of_mod (a + b + c) d 40 h3 h3b, or_eq_add_of_mod (a + b + c + d) e 32 h4 h4b,
    or_eq_add_of_mod (a + b + c + d + e) f 24 h5 h5b,
    or_eq_add_of_mod (a + b + c + d + e + f) g 16 h6 h6b,
    or_eq_add_of_mod (a + b + c + d + e + f + g) h 8 h7 h7b]

theorem builtin_bswap16_arith (x : Nat) :
    builtin_bswap16 x
      = (x % 2 ^ 16) / 256 % 256 + 256 * ((x % 2 ^ 16) % 256 + 256 * 0) := rfl

theorem builtin_bswap32_arith (x : Nat) :
    builtin_bswap32 x
      = (x % 2 ^ 32) / 256 / 256 / 256 % 256 + 256 * ((x % 2 ^ 32) / 256 / 256 % 256
        + 256 * ((x % 2 ^ 32) / 256 % 256 + 256 * ((x % 2 ^ 32) % 256 + 256 * 0))) := rfl

theorem builtin_bswap64_arith (x : Nat) :
    builtin_bswap64 x
      = (x % 2 ^ 64) / 256 / 256 / 256 / 256 / 256 / 256 / 256 % 256
        + 256 * ((x % 2 ^ 64) / 256 / 256 / 256 / 256 / 256 / 256 % 256
        + 256 * ((x % 2 ^ 64) / 256 / 256 / 256 / 256 / 256 % 256
        + 256 * ((x % 2 ^ 64) / 256 / 256 / 256 / 256 % 256
        + 256 * ((x % 2 ^ 64) / 256 / 256 / 256 % 256
        + 256 * ((x % 2 ^ 64) / 256 / 256 % 256
        + 256 * ((x % 2 ^ 64) / 256 % 256
        + 256 * ((x % 2 ^ 64) % 256 + 256 * 0))))))) := rfl

theorem builtin_bswap16_eq_portable (x : Nat) (hx : x < 2 ^ 16) :
    builtin_bswap16 x = portable_bswap16 x := by
  rw [builtin_bswap16_arith, Nat.mod_eq_of_lt hx]
  unfold portable_bswap16
  simp only [Nat.shiftLeft_eq, Nat.shiftRight_eq_div_pow, Nat.reducePow]
  have hb1 : x / 256 < 256 := by omega
  have hb0 : x % 256 < 256 := Nat.mod_lt _ (by decide)
  have hx2 : x = x % 256 + 256 * (x / 256) := by omega
  rw [or_eq_add_of_mod (x * 256) (x / 256) 8 (by omega) hb1]
  generalize x / 256 = b1 at hb1 hx2 ⊢
  generalize x % 256 = b0 at hb0 hx2 ⊢
  subst hx2
  have e : (b0 + 256 * b1) * 256 + b1 = 65536 * b1 + (256 * b0 + b1) := by ring
  rw [e, Nat.mul_add_mod, Nat.mod_eq_of_lt (show 256 * b0 + b1 < 65536 by omega),
    Nat.mod_eq_of_lt hb1]
  omega

theorem builtin_bswap32_eq_portable (x : Nat) (hx : x < 2 ^ 32) :
    builtin_bswap32 x = portable_bswap32 x := by
  rw [builtin_bswap32_arith, Nat.mod_eq_of_lt hx]
  unfold portable_bswap32
  have m1 : x &&& 0xFF00 = x / 2 ^ 8 % 256 * 2 ^ 8 := and_mask_byte x 8
  have m2 : (x >>> 8) &&& 0xFF00 = (x >>> 8) / 2 ^ 8 % 256 * 2 ^ 8 := and_mask_byte (x >>> 8) 8
  rw [m1, m2, and_255]
  clear m1 m2
  simp only [Nat.shiftLeft_eq, Nat.shiftRight_eq_div_pow, Nat.div_div_eq_div_mul,
    Nat.reducePow, Nat.reduceMul]
  have hb3 : x / 16777216 < 256 := by omega
  rw [Nat.mod_eq_of_lt hb3]
  have hb2 : x / 65536 % 256 < 256 := Nat.mod_lt _ (by decide)
  have hb1 : x / 256 % 256 < 256 := Nat.mod_lt _ (by decide)
  have hb0 : x % 256 < 256 := Nat.mod_lt _ (by decide)
  generalize x / 16777216 = b3 at hb3 ⊢
  generalize x / 65536 % 256 = b2 at hb2 ⊢
  generalize x / 256 % 256 = b1 at hb1 ⊢
  generalize x % 256 = b0 at hb0 ⊢
  rw [or4_eq_add _ _ _ _ (by omega) (by omega) (by omega) (by omega) (by omega) (by omega)]
  omega

theorem builtin_bswap64_eq_portable (x : Nat) (hx : x < 2 ^ 64) :
    builtin_bswap64 x = portable_bswap64 x := by
  rw [builtin_bswap64_arith, Nat.mod_eq_of_lt hx]
  unfold portable_bswap64
  have m1 : x &&& 0xFF00 = x / 2 ^ 8 % 256 * 2 ^ 8 := and_mask_byte x 8
  have m2 : x &&& 0xFF0000 = x / 2 ^ 16 % 256 * 2 ^ 16 := and_mask_byte x 16
  have m3 : x &&& 0xFF000000 = x / 2 ^ 24 % 256 * 2 ^ 24 := and_mask_byte x 24
  have m4 : (x >>> 8) &&& 0xFF000000 = (x >>> 8) / 2 ^ 24 % 256 * 2 ^ 24 :=
    and_mask_byte (x >>> 8) 24
  have m5 : (x >>> 24) &&& 0xFF0000 = (x >>> 24) / 2 ^ 16 % 256 * 2 ^ 16 :=
    and_mask_byte (x >>> 24) 16
  have m6 : (x >>> 40) &&& 0xFF00 = (x >>> 40) / 2 ^ 8 % 256 * 2 ^ 8 :=
    and_mask_byte (x >>> 40) 8
  rw [m1, m2, m3, m4, m5, m6, and_255]
  clear m1 m2 m3 m4 m5 m6
  simp only [Nat.shiftLeft_eq, Nat.shiftRight_eq_div_pow, Nat.div_div_eq_div_mul,
    Nat.reducePow, Nat.reduceMul]
  have hb7 : x / 72057594037927936 < 256 := by omega
  rw [Nat.mod_eq_of_lt hb7]
  have hb6 : x / 281474976710656 % 256 < 256 := Nat.mod_lt _ (by decide)
  have hb5 : x / 1099511627776 % 256 < 256 := Nat.mod_lt _ (by decide)
  have hb4 : x / 4294967296 % 256 < 256 := Nat.mod_lt _ (by decide)
  have hb3 : x / 16777216 % 256 < 256 := Nat.mod_lt _ (by decide)
  have hb2 : x / 65536 % 256 < 256 := Nat.mod_lt _ (by decide)
  have hb1 : x / 256 % 256 < 256 := Nat.mod_lt _ (by decide)
  have hb0 : x % 256 < 256 := Nat.mod_lt _ (by decide)
  generalize x / 72057594037927936 = b7 at hb7 ⊢
  generalize x / 281474976710656 % 256 = b6 at hb6 ⊢
  generalize x / 1099511627776 % 256 = b5 at hb5 ⊢
  generalize x / 4294967296 % 256 = b4 at hb4 ⊢
  generalize x / 16777216 % 256 = b3 at hb3 ⊢
  generalize x / 65536 % 256 = b2 at hb2 ⊢
  generalize x / 256 % 256 = b1 at hb1 ⊢
  generalize x % 256 = b0 at hb0 ⊢
  rw [or8_eq_add _ _ _ _ _ _ _ _ (by omega) (by omega) (by omega) (by omega) (by omega)
    (by omega) (by omega) (by omega) (by omega) (by omega) (by omega) (by omega) (by omega)
    (by omega)]
  omega

/-- C12. On every build, each of `compiler_bswap16/32/64` that the header
defines agrees, on every value of its width, with the portable
shift-and-mask sequence of that width. -/
theorem bswap_eq_portable (c : Build) :
    (∀ f, compiler_bswap16 c = some f → ∀ x, x < 2 ^ 16 → f x = portable_bswap16 x)
    ∧ (∀ f, compiler_bswap32 c = some f → ∀ x, x < 2 ^ 32 → f x = portable_bswap32 x)
    ∧ (∀ f, compiler_bswap64 c = some f → ∀ x, x < 2 ^ 64 → f x = portable_bswap64 x) := by
  refine ⟨?_, ?_, ?_⟩
  · intro f hf x hx
    rw [compiler_bswap16_eq hf]
    exact builtin_bswap16_eq_portable x hx
  · intro f hf x hx
    rw [compiler_bswap32_eq hf]
    exact builtin_bswap32_eq_portable x hx
  · intro f hf x hx
    rw [compiler_bswap64_eq hf]
    exact builtin_bswap64_eq_portable x hx

/-- Witness for C12: on a gcc 4.9 build the three intrinsics agree with the
portable sequences at sample values. -/
theorem bswap_eq_portable_witness :
    compiler_bswap64 ⟨4, 9, true, .little, true, false, false⟩ = some builtin_bswap64
    ∧ builtin_bswap16 0xaabb = portable_bswap16 0xaabb
    ∧ builtin_bswap32 0x01020304 = portable_bswap32 0x01020304
    ∧ builtin_bswap64 0x0102030405060708 = portable_bswap64 0x0102030405060708 :=
  ⟨rfl,
   (bswap_eq_portable ⟨4, 9, true, .little, true, false, false⟩).1 builtin_bswap16 rfl
     0xaabb (by decide),
   (bswap_eq_portable ⟨4, 9, true, .little, true, false, false⟩).2.1 builtin_bswap32 rfl
     0x01020304 (by decide),
   (bswap_eq_portable ⟨4, 9, true, .little, true, false, false⟩).2.2 builtin_bswap64 rfl
     0x0102030405060708 (by decide)⟩

/-! ## Byte-wise fallback -/

theorem readBytes_eq_window (mem : List Nat) (p k : Nat) (h : p + k ≤ mem.length) :
    readBytes mem p k = some ((mem.drop p).take k) := by
  induction k generalizing p with
  | zero => simp [readBytes]
  | succ k ih =>
    have hp : p < mem.length := by omega
    rw [readBytes, List.getElem?_eq_getElem hp]
    simp only [ih (p + 1) (by omega), Option.map_some']
    rw [List.drop_eq_getElem_cons hp, List.take_succ_cons]

theorem writeBytes_eq_splice (mem : List Nat) (p : Nat) (bs : List Nat)
    (h : p + bs.length ≤ mem.length) :
    writeBytes mem p bs = some (mem.take p ++ bs ++ mem.drop (p + bs.length)) := by
  induction bs generalizing mem p with
  | nil => simp [writeBytes]
  | cons b bs ih =>
    simp only [List.length_cons] at h ⊢
    have hp : p < mem.length := by omega
    rw [writeBytes, if_pos hp, ih (mem.set p b) (p + 1) (by rw [List.length_set]; omega)]
    congr 1
    have hd : (mem.set p b).drop (p + 1 + bs.length) = mem.drop (p + (bs.length + 1)) := by
      rw [List.drop_set, if_pos (by omega)]
      congr 1; omega
    have ht : (mem.set p b).take (p + 1) = mem.take p ++ [b] := by
      rw [List.set_eq_take_cons_drop b hp,
        show mem.take p ++ b :: mem.drop (p + 1) = (mem.take p ++ [b]) ++ mem.drop (p + 1) by simp,
        List.take_append_of_le_length (by simp; omega), List.take_of_length_le (by simp)]
    rw [hd, ht]
    simp

theorem splitShift_little_eq (k v : Nat) :
    (List.range k).map (fun i => (v >>> (8 * i)) &&& 0xFF) = toBytesLE k v := by
  induction k generalizing v with
  | zero => rfl
  | succ k ih =>
    rw [List.range_succ_eq_map, List.map_cons, List.map_map, toBytesLE, ← ih (v / 256)]
    congr 1
    · simp [and_255]
    · apply List.map_congr_left
      intro i _
      simp only [Function.comp, Nat.succ_eq_add_one]
      rw [Nat.mul_add, Nat.add_comm, Nat.shiftRight_add, Nat.shiftRight_eq_div_pow v]

theorem splitShift_eq_objectRepr (order : ByteOrder) (k v : Nat) :
    splitShift order k v = objectRepr order k v := by
  cases order <;> simp only [splitShift, objectRepr, splitShift_little_eq]

theorem load_eq_bytewise (order : ByteOrder) (type : UType) (b : List Nat) (o : Nat)
    (hb : IsBytes b) (ho : o + type.sizeof ≤ b.length) :
    load_type_unaligned order type b o = load_bytewise order type b o := by
  simp only [load_type_unaligned, load_bytewise, if_pos ho, readBytes_eq_window b o _ ho,
    Option.map_some', shiftCombine_eq_objectValue order _ (isBytes_window hb o type.sizeof)]

theorem store_eq_bytewise (order : ByteOrder) (type : UType) (v : Nat) (b : List Nat) (o : Nat)
    (ho : o + type.sizeof ≤ b.length) :
    store_type_unaligned order type v b o = store_bytewise order type v b o := by
  have hl : (objectRepr order type.sizeof (v % 2 ^ type.bits)).length = type.sizeof :=
    length_objectRepr _ _ _
  simp only [store_type_unaligned, store_bytewise, if_pos ho, splitShift_eq_objectRepr]
  rw [writeBytes_eq_splice b o _ (by rw [hl]; exact ho), hl]

/-- C13. Take any two builds of the same byte order, whether the header
defines `UNALIGNED_ACCESS_IS_FAST` on both, on one or on neither.  For each
of the 16-, 32- and 64-bit types, every byte buffer, in-bounds offset and
value, the unaligned load and store return a result, the same on both
builds, and that result is the one of the byte-wise fallback that reads or
writes the `sizeof(T)` bytes one at a time. -/
theorem unaligned_fast_marker_irrelevant (c1 c2 : Build) (hord : c1.order = c2.order)
    (type : UType) (v : Nat) (b : List Nat) (o : Nat)
    (hb : IsBytes b) (ho : o + type.sizeof ≤ b.length) :
    (∃ x, load_type_unaligned c1.order type b o = some x)
    ∧ (∃ b2, store_type_unaligned c1.order type v b o = some b2)
    ∧ load_type_unaligned c1.order type b o = load_type_unaligned c2.order type b o
    ∧ store_type_unaligned c1.order type v b o = store_type_unaligned c2.order type v b o
    ∧ load_type_unaligned c1.order type b o = load_bytewise c1.order type b o
    ∧ load_type_unaligned c2.order type b o = load_bytewise c2.order type b o
    ∧ store_type_unaligned c1.order type v b o = store_bytewise c1.order type v b o
    ∧ store_type_unaligned c2.order type v b o = store_bytewise c2.order type v b o := by
  refine ⟨⟨_, if_pos ho⟩, ⟨_, if_pos ho⟩, by rw [hord], by rw [hord],
    load_eq_bytewise _ _ _ _ hb ho, load_eq_bytewise _ _ _ _ hb ho,
    store_eq_bytewise _ _ _ _ _ ho, store_eq_bytewise _ _ _ _ _ ho⟩

/-- Witness for C13: an x86_64 build, where the marker is defined, and a
little-endian build without any of the three target macros, where it is not;
a 32-bit access at offset 1. -/
theorem unaligned_fast_marker_irrelevant_witness :
    UNALIGNED_ACCESS_IS_FAST ⟨4, 9, true, .little, true, false, false⟩ = true
    ∧ UNALIGNED_ACCESS_IS_FAST ⟨4, 9, true, .little, false, false, false⟩ = false
    ∧ load_type_unaligned .little .u32 [9, 4, 3, 2, 1, 9] 1
        = load_bytewise .little .u32 [9, 4, 3, 2, 1, 9] 1
    ∧ store_type_unaligned .little .u32 0x0a0b0c0d [9, 4, 3, 2, 1, 9] 1
        = store_bytewise .little .u32 0x0a0b0c0d [9, 4, 3, 2, 1, 9] 1 :=
  ⟨rfl, rfl,
   (unaligned_fast_marker_irrelevant ⟨4, 9, true, .little, true, false, false⟩
     ⟨4, 9, true, .little, false, false, false⟩ rfl .u32 0x0a0b0c0d
     [9, 4, 3, 2, 1, 9] 1 (by decide) (by decide)).2.2.2.2.1,
   (unaligned_fast_marker_irrelevant ⟨4, 9, true, .little, true, false, false⟩
     ⟨4, 9, true, .little, false, false, false⟩ rfl .u32 0x0a0b0c0d
     [9, 4, 3, 2, 1, 9] 1 (by decide) (by decide)).2.2.2.2.2.2.1⟩

/-! ## Byte swap as the conversion between byte orders -/

theorem order_of_cpu_is_little_endian {c : Build} {le : Bool}
    (h : CPU_IS_LITTLE_ENDIAN c = some le) :
    c.order = (if le then ByteOrder.little else ByteOrder.big) := by
  unfold CPU_IS_LITTLE_ENDIAN BYTE_ORDER at h
  cases hbo : c.hasByteOrder
  · simp [hbo] at h
  · cases hord : c.order
    · simp only [hbo, hord, if_true, Option.some.injEq] at h
      subst h
      decide
    · simp only [hbo, hord, if_true, Option.some.injEq] at h
      subst h
      decide

theorem swap_ofBytesLE (bs : List Nat) (h : IsBytes bs) :
    ofBytesLE (toBytesLE bs.length (ofBytesLE bs % 256 ^ bs.length)).reverse
      = ofBytesLE bs.reverse := by
  rw [Nat.mod_eq_of_lt (ofBytesLE_lt bs h), toBytesLE_ofBytesLE bs h]

theorem toBytesLE_swap (k v : Nat) :
    toBytesLE k (ofBytesLE (toBytesLE k v).reverse % 256 ^ k) = (toBytesLE k v).reverse := by
  have h := toBytesLE_ofBytesLE _ (isBytes_reverse (isBytes_toBytesLE k v))
  simp only [List.length_reverse, length_toBytesLE] at h
  rw [Nat.mod_eq_of_lt (swapped_lt k v), h]

theorem load_swap (order order2 : ByteOrder) (hne : order ≠ order2) (type : UType)
    (f : Nat → Nat)
    (hf : ∀ x, f x = ofBytesLE (toBytesLE type.sizeof (x % 256 ^ type.sizeof)).reverse)
    (b : List Nat) (o : Nat) (hb : IsBytes b) :
    (load_type_unaligned order type b o).map f = load_type_unaligned order2 type b o := by
  unfold load_type_unaligned
  by_cases ho : o + type.sizeof ≤ b.length
  · have hw := isBytes_window hb o type.sizeof
    have hl := length_window b o type.sizeof ho
    simp only [if_pos ho, Option.map_some', hf, Option.some.injEq]
    cases order <;> cases order2 <;> first | exact absurd rfl hne | skip
    · have h := swap_ofBytesLE _ hw
      rw [hl] at h
      simpa [objectValue] using h
    · have h := swap_ofBytesLE _ (isBytes_reverse hw)
      rw [List.length_reverse, hl, List.reverse_reverse] at h
      simpa [objectValue] using h
  · simp only [if_neg ho, Option.map_none']

theorem store_swap (order order2 : ByteOrder) (hne : order ≠ order2) (type : UType)
    (f : Nat → Nat)
    (hf : ∀ x, f x = ofBytesLE (toBytesLE type.sizeof (x % 256 ^ type.sizeof)).reverse)
    (v : Nat) (b : List Nat) (o : Nat) :
    store_type_unaligned order type (f v) b o = store_type_unaligned order2 type v b o := by
  unfold store_type_unaligned
  have hr : objectRepr order type.sizeof (f v % 2 ^ type.bits)
      = objectRepr order2 type.sizeof (v % 2 ^ type.bits) := by
    rw [hf, two_pow_bits]
    cases order <;> cases order2 <;> first | exact absurd rfl hne | skip
    · simp only [objectRepr, toBytesLE_swap]
    · simp only [objectRepr, toBytesLE_swap, List.reverse_reverse]
  rw [hr]

/-- C14. Take a build where `CPU_IS_LITTLE_ENDIAN()` is false and a build
where it is true.  For each width 16/32/64, with `f` the `compiler_bswap` of
that width as either build defines it, for every byte buffer and offset: the
value loaded on the first build, passed through `f`, is the value loaded from
the same bytes on the second build, and conversely; and for every value `v`,
storing `f v` on one build writes what storing `v` on the other writes. -/
theorem bswap_converts_byte_order (cB cL : Build)
    (hB : CPU_IS_LITTLE_ENDIAN cB = some false) (hL : CPU_IS_LITTLE_ENDIAN cL = some true)
    (b : List Nat) (o : Nat) (hb : IsBytes b) :
    (∀ f, (compiler_bswap16 cB = some f ∨ compiler_bswap16 cL = some f) →
        (load_type_unaligned cB.order .u16 b o).map f = load_type_unaligned cL.order .u16 b o
        ∧ (load_type_unaligned cL.order .u16 b o).map f = load_type_unaligned cB.order .u16 b o
        ∧ ∀ v, store_type_unaligned cB.order .u16 (f v) b o
              = store_type_unaligned cL.order .u16 v b o
            ∧ store_type_unaligned cL.order .u16 (f v) b o
              = store_type_unaligned cB.order .u16 v b o)
    ∧ (∀ f, (compiler_bswap32 cB = some f ∨ compiler_bswap32 cL = some f) →
        (load_type_unaligned cB.order .u32 b o).map f = load_type_unaligned cL.order .u32 b o
        ∧ (load_type_unaligned cL.order .u32 b o).map f = load_type_unaligned cB.order .u32 b o
        ∧ ∀ v, store_type_unaligned cB.order .u32 (f v) b o
              = store_type_unaligned cL.order .u32 v b o
            ∧ store_type_unaligned cL.order .u32 (f v) b o
              = store_type_unaligned cB.order .u32 v b o)
    ∧ (∀ f, (compiler_bswap64 cB = some f ∨ compiler_bswap64 cL = some f) →
        (load_type_unaligned cB.order .u64 b o).map f = load_type_unaligned cL.order .u64 b o
        ∧ (load_type_unaligned cL.order .u64 b o).map f = load_type_unaligned cB.order .u64 b o
        ∧ ∀ v, store_type_unaligned cB.order .u64 (f v) b o
              = store_type_unaligned cL.order .u64 v b o
            ∧ store_type_unaligned cL.order .u64 (f v) b o
              = store_type_unaligned cB.order .u64 v b o) := by
  have oB : cB.order = .big := order_of_cpu_is_little_endian hB
  have oL : cL.order = .little := order_of_cpu_is_little_endian hL
  rw [oB, oL]
  refine ⟨?_, ?_, ?_⟩
  · intro f hf
    have e : f = builtin_bswap16 := hf.elim compiler_bswap16_eq compiler_bswap16_eq
    subst e
    exact ⟨load_swap .big .little (by decide) .u16 _ (fun _ => rfl) b o hb,
      load_swap .little .big (by decide) .u16 _ (fun _ => rfl) b o hb,
      fun v => ⟨store_swap .big .little (by decide) .u16 _ (fun _ => rfl) v b o,
        store_swap .little .big (by decide) .u16 _ (fun _ => rfl) v b o⟩⟩
  · intro f hf
    have e : f = builtin_bswap32 := hf.elim compiler_bswap32_eq compiler_bswap32_eq
    subst e
    exact ⟨load_swap .big .little (by decide) .u32 _ (fun _ => rfl) b o hb,
      load_swap .little .big (by decide) .u32 _ (fun _ => rfl) b o hb,
      fun v => ⟨store_swap .big .little (by decide) .u32 _ (fun _ => rfl) v b o,
        store_swap .little .big (by decide) .u32 _ (fun _ => rfl) v b o⟩⟩
  · intro f hf
    have e : f = builtin_bswap64 := hf.elim compiler_bswap64_eq compiler_bswap64_eq
    subst e
    exact ⟨load_swap .big .little (by decide) .u64 _ (fun _ => rfl) b o hb,
      load_swap .little .big (by decide) .u64 _ (fun _ => rfl) b o hb,
      fun v => ⟨store_swap .big .little (by decide) .u64 _ (fun _ => rfl) v b o,
        store_swap .little .big (by decide) .u64 _ (fun _ => rfl) v b o⟩⟩

/-- Witness for C14: a big-endian and a little-endian gcc 4.9 build, the
bytes 01 02 03 04 at offset 1: the big-endian load gives 0x01020304, its swap
0x04030201 is the little-endian load. -/
theorem bswap_converts_byte_order_witness :
    CPU_IS_LITTLE_ENDIAN ⟨4, 9, true, .big, false, false, false⟩ = some false
    ∧ CPU_IS_LITTLE_ENDIAN ⟨4, 9, true, .little, true, false, false⟩ = some true
    ∧ load_type_unaligned .big .u32 [9, 1, 2, 3, 4] 1 = some 0x01020304
    ∧ (load_type_unaligned .big .u32 [9, 1, 2, 3, 4] 1).map builtin_bswap32
        = load_type_unaligned .little .u32 [9, 1, 2, 3, 4] 1
    ∧ store_type_unaligned .big .u32 (builtin_bswap32 0x01020304) [9, 1, 2, 3, 4] 1
        = store_type_unaligned .little .u32 0x01020304 [9, 1, 2, 3, 4] 1 :=
  ⟨rfl, rfl, by decide,
   ((bswap_converts_byte_order ⟨4, 9, true, .big, false, false, false⟩
     ⟨4, 9, true, .little, true, false, false⟩ rfl rfl [9, 1, 2, 3, 4] 1 (by decide)).2.1
     builtin_bswap32 (Or.inl rfl)).1,
   (((bswap_converts_byte_order ⟨4, 9, true, .big, false, false, false⟩
     ⟨4, 9, true, .little, true, false, false⟩ rfl rfl [9, 1, 2, 3, 4] 1 (by decide)).2.1
     builtin_bswap32 (Or.inl rfl)).2.2 0x01020304).1⟩

/-! ## Relations between the bit scans -/

theorem msb_index_unique (x r1 r2 : Nat) (h1 : 2 ^ r1 ≤ x) (h1b : x < 2 ^ (r1 + 1))
    (h2 : 2 ^ r2 ≤ x) (h2b : x < 2 ^ (r2 + 1)) : r1 = r2 := by
  have a : r1 < r2 + 1 :=
    (Nat.pow_lt_pow_iff_right (by decide : 1 < 2)).mp (Nat.lt_of_le_of_lt h1 h2b)
  have b : r2 < r1 + 1 :=
    (Nat.pow_lt_pow_iff_right (by decide : 1 < 2)).mp (Nat.lt_of_le_of_lt h2 h1b)
  omega

theorem lsb_index_unique (x t1 t2 : Nat) (h1 : 2 ^ t1 ∣ x) (h1b : ¬ 2 ^ (t1 + 1) ∣ x)
    (h2 : 2 ^ t2 ∣ x) (h2b : ¬ 2 ^ (t2 + 1) ∣ x) : t1 = t2 := by
  have a : ¬ t1 + 1 ≤ t2 := fun h => h1b (Nat.dvd_trans (Nat.pow_dvd_pow 2 h) h2)
  have b : ¬ t2 + 1 ≤ t1 := fun h => h2b (Nat.dvd_trans (Nat.pow_dvd_pow 2 h) h1)
  omega

theorem lsb_le_msb (x t r : Nat) (h0 : 0 < x) (ht : 2 ^ t ∣ x) (htb : ¬ 2 ^ (t + 1) ∣ x)
    (hr : 2 ^ r ≤ x) (hrb : x < 2 ^ (r + 1)) :
    t ≤ r ∧ (t = r ↔ ∃ k, x = 2 ^ k) := by
  have hle : t < r + 1 :=
    (Nat.pow_lt_pow_iff_right (by decide : 1 < 2)).mp
      (Nat.lt_of_le_of_lt (Nat.le_of_dvd h0 ht) hrb)
  refine ⟨by omega, ?_, ?_⟩
  · intro e
    subst e
    obtain ⟨m, hm⟩ := ht
    refine ⟨t, ?_⟩
    have hm2 : m < 2 := by
      rw [hm, pow_succ] at hrb
      exact Nat.lt_of_mul_lt_mul_left hrb
    have hm1 : m ≠ 0 := by
      intro h; rw [h, Nat.mul_zero] at hm; omega
    have : m = 1 := by omega
    rw [hm, this, Nat.mul_one]
  · rintro ⟨k, hk⟩
    subst hk
    have hrk : r = k := msb_index_unique (2 ^ k) r k hr hrb (Nat.le_refl _)
      ((Nat.pow_lt_pow_iff_right (by decide : 1 < 2)).mpr (Nat.lt_succ_self k))
    have htk : t ≤ k := (Nat.pow_dvd_pow_iff_le_right (by decide : 1 < 2)).mp ht
    have htk2 : ¬ t + 1 ≤ k := fun h => htb (Nat.pow_dvd_pow 2 h)
    omega

theorem scans_spec (w x : Nat) (h0 : 0 < x) (hx : x < 2 ^ w) :
    ∃ r t : Nat, r + countLeadingZeros w x + 1 = w ∧ t = countTrailingZeros w x
      ∧ r < w ∧ t < w
      ∧ 2 ^ r ≤ x ∧ x < 2 ^ (r + 1) ∧ 2 ^ t ∣ x ∧ ¬ 2 ^ (t + 1) ∣ x := by
  obtain ⟨h1, h2, h3⟩ := countLeadingZeros_spec w x h0 hx
  obtain ⟨g1, _, _, g4, g5⟩ := countTrailingZeros_spec w x h0 hx
  refine ⟨w - 1 - countLeadingZeros w x, countTrailingZeros w x, by omega, rfl, by omega, g1,
    Nat.testBit_implies_ge h2, ?_, g4, g5⟩
  have e : w - 1 - countLeadingZeros w x + 1 = w - countLeadingZeros w x := by omega
  rw [e]; exact h3

theorem compiler_fls32_eq (n r : Nat) (h0 : 0 < n) (hn : n < 2 ^ 32)
    (hr : r + countLeadingZeros 32 n + 1 = 32) : compiler_fls32 n = some (r : Int) := by
  simp only [compiler_fls32, builtin_clz_eq n h0 hn, Option.map_some', Int.ofNat_eq_coe]
  congr 1; omega

theorem compiler_fls64_eq (n r : Nat) (h0 : 0 < n) (hn : n < 2 ^ 64)
    (hr : r + countLeadingZeros 64 n + 1 = 64) : compiler_fls64 n = some (r : Int) := by
  simp only [compiler_fls64, builtin_clzll_eq n h0 hn, Option.map_some', Int.ofNat_eq_coe]
  congr 1; omega

theorem compiler_ffs32_eq (n : Nat) (h0 : 0 < n) (hn : n < 2 ^ 32) :
    compiler_ffs32 n = some (countTrailingZeros 32 n : Int) := by
  simp only [compiler_ffs32, builtin_ctz_eq n h0 hn, Option.map_some', Int.ofNat_eq_coe]

theorem compiler_ffs64_eq (n : Nat) (h0 : 0 < n) (hn : n < 2 ^ 64) :
    compiler_ffs64 n = some (countTrailingZeros 64 n : Int) := by
  simp only [compiler_ffs64, builtin_ctzll_eq n h0 hn, Option.map_some', Int.ofNat_eq_coe]

/-- C15. For every non-zero 32-bit `n`, `compiler_ffs32(n)` and
`compiler_fls32(n)` are defined and `compiler_ffs32(n) <= compiler_fls32(n)`,
with equality exactly when `n` is a power of two; the same holds for
`compiler_ffs64` and `compiler_fls64` on every non-zero 64-bit `n`. -/
theorem ffs_le_fls :
    (∀ n, 0 < n → n < 2 ^ 32 → ∃ a b : Int,
        compiler_ffs32 n = some a ∧ compiler_fls32 n = some b
        ∧ a ≤ b ∧ (a = b ↔ ∃ k, n = 2 ^ k))
    ∧ (∀ n, 0 < n → n < 2 ^ 64 → ∃ a b : Int,
        compiler_ffs64 n = some a ∧ compiler_fls64 n = some b
        ∧ a ≤ b ∧ (a = b ↔ ∃ k, n = 2 ^ k)) := by
  refine ⟨?_, ?_⟩
  · intro n h0 hn
    obtain ⟨r, t, hr, ht, _, _, p1, p2, p3, p4⟩ := scans_spec 32 n h0 hn
    obtain ⟨q1, q2⟩ := lsb_le_msb n t r h0 p3 p4 p1 p2
    refine ⟨(t : Int), (r : Int), ?_, compiler_fls32_eq n r h0 hn hr, by omega, ?_⟩
    · rw [ht]; exact compiler_ffs32_eq n h0 hn
    · rw [← q2]; omega
  · intro n h0 hn
    obtain ⟨r, t, hr, ht, _, _, p1, p2, p3, p4⟩ := scans_spec 64 n h0 hn
    obtain ⟨q1, q2⟩ := lsb_le_msb n t r h0 p3 p4 p1 p2
    refine ⟨(t : Int), (r : Int), ?_, compiler_fls64_eq n r h0 hn hr, by omega, ?_⟩
    · rw [ht]; exact compiler_ffs64_eq n h0 hn
    · rw [← q2]; omega

/-- Witness for C15: at `n = 0x00012340` the first set bit lies at or below
the last one. -/
theorem ffs_le_fls_witness :
    ∃ a b : Int, compiler_ffs32 0x12340 = some a ∧ compiler_fls32 0x12340 = some b
      ∧ a ≤ b ∧ (a = b ↔ ∃ k, 0x12340 = 2 ^ k) :=
  ffs_le_fls.1 0x12340 (by decide) (by decide)

/-- C16. For every `n` with `0 < n < 2^32`, the 64-bit scans of `n`
(zero-extended) are defined and agree with the 32-bit scans:
`compiler_fls64(n) == compiler_fls32(n)` and
`compiler_ffs64(n) == compiler_ffs32(n)`. -/
theorem scans_agree_across_widths (n : Nat) (h0 : 0 < n) (hn : n < 2 ^ 32) :
    (∃ a b : Int, compiler_fls32 n = some a ∧ compiler_ffs32 n = some b)
    ∧ compiler_fls64 n = compiler_fls32 n
    ∧ compiler_ffs64 n = compiler_ffs32 n := by
  have hn64 : n < 2 ^ 64 := Nat.lt_trans hn (by decide)
  obtain ⟨r, t, hr, ht, _, _, p1, p2, p3, p4⟩ := scans_spec 32 n h0 hn
  obtain ⟨r2, t2, hr2, ht2, _, _, s1, s2, s3, s4⟩ := scans_spec 64 n h0 hn64
  have er : r2 = r := msb_index_unique n r2 r s1 s2 p1 p2
  have et : t2 = t := lsb_index_unique n t2 t s3 s4 p3 p4
  subst er et
  refine ⟨⟨_, _, compiler_fls32_eq n r2 h0 hn hr, compiler_ffs32_eq n h0 hn⟩, ?_, ?_⟩
  · rw [compiler_fls64_eq n r2 h0 hn64 hr2, compiler_fls32_eq n r2 h0 hn hr]
  · rw [compiler_ffs64_eq n h0 hn64, compiler_ffs32_eq n h0 hn, ← ht, ← ht2]

/-- Witness for C16: the scans of `0x00012340` at both widths. -/
theorem scans_agree_across_widths_witness :
    (∃ a b : Int, compiler_fls32 0x12340 = some a ∧ compiler_ffs32 0x12340 = some b)
    ∧ compiler_fls64 0x12340 = compiler_fls32 0x12340
    ∧ compiler_ffs64 0x12340 = compiler_ffs32 0x12340 :=
  scans_agree_across_widths 0x12340 (by decide) (by decide)

/-- C17. For every non-zero 32-bit `n`, `__builtin_clz(n) <= 31`, so the
subtraction in `compiler_fls32` does not go negative and
`0 <= compiler_fls32(n) <= 31`, and `0 <= compiler_ffs32(n) <= 31`; for every
non-zero 64-bit `n`, `0 <= compiler_fls64(n) <= 63` and
`0 <= compiler_ffs64(n) <= 63`. -/
theorem scan_results_in_range :
    (∀ n, 0 < n → n < 2 ^ 32 → ∃ (z : Nat) (a b : Int),
        builtin_clz n = some z ∧ z ≤ 31
        ∧ compiler_fls32 n = some a ∧ 0 ≤ a ∧ a ≤ 31
        ∧ compiler_ffs32 n = some b ∧ 0 ≤ b ∧ b ≤ 31)
    ∧ (∀ n, 0 < n → n < 2 ^ 64 → ∃ (z : Nat) (a b : Int),
        builtin_clzll n = some z ∧ z ≤ 63
        ∧ compiler_fls64 n = some a ∧ 0 ≤ a ∧ a ≤ 63
        ∧ compiler_ffs64 n = some b ∧ 0 ≤ b ∧ b ≤ 63) := by
  refine ⟨?_, ?_⟩
  · intro n h0 hn
    obtain ⟨r, t, hr, ht, hr2, ht2, _⟩ := scans_spec 32 n h0 hn
    refine ⟨countLeadingZeros 32 n, (r : Int), (t : Int), builtin_clz_eq n h0 hn, by omega,
      compiler_fls32_eq n r h0 hn hr, by omega, by omega, ?_, by omega, by omega⟩
    rw [ht]; exact compiler_ffs32_eq n h0 hn
  · intro n h0 hn
    obtain ⟨r, t, hr, ht, hr2, ht2, _⟩ := scans_spec 64 n h0 hn
    refine ⟨countLeadingZeros 64 n, (r : Int), (t : Int), builtin_clzll_eq n h0 hn, by omega,
      compiler_fls64_eq n r h0 hn hr, by omega, by omega, ?_, by omega, by omega⟩
    rw [ht]; exact compiler_ffs64_eq n h0 hn

/-- Witness for C17: the ranges at the largest 32-bit value. -/
theorem scan_results_in_range_witness :
    ∃ (z : Nat) (a b : Int),
      builtin_clz 0xFFFFFFFF = some z ∧ z ≤ 31
      ∧ compiler_fls32 0xFFFFFFFF = some a ∧ 0 ≤ a ∧ a ≤ 31
      ∧ compiler_ffs32 0xFFFFFFFF = some b ∧ 0 ≤ b ∧ b ≤ 31 :=
  scan_results_in_range.1 0xFFFFFFFF (by decide) (by decide)

/-! ## Availability of the byte-swap macros -/

theorem versionAtLeast_iff (c : Build) (major minor : Nat) :
    versionAtLeast c.version major minor
      ↔ major < c.gnuc ∨ (major = c.gnuc ∧ minor ≤ c.gnucMinor) := by
  unfold versionAtLeast Build.version
  exact Prod.Lex.le_iff (major, minor) (c.gnuc, c.gnucMinor)

theorem gnucAtLeast_4_3_iff (c : Build) : gnucAtLeast_4_3 c = true ↔ versionAtLeast c.version 4 3 := by
  rw [versionAtLeast_iff]
  simp only [gnucAtLeast_4_3, Bool.or_eq_true, Bool.and_eq_true, decide_eq_true_eq,
    beq_iff_eq]
  omega

theorem gnucAtLeast_4_8_iff (c : Build) : gnucAtLeast_4_8 c = true ↔ versionAtLeast c.version 4 8 := by
  rw [versionAtLeast_iff]
  simp only [gnucAtLeast_4_8, Bool.or_eq_true, Bool.and_eq_true, decide_eq_true_eq,
    beq_iff_eq]
  omega

theorem compiler_bswap16_isSome (c : Build) :
    (compiler_bswap16 c).isSome = gnucAtLeast_4_8 c := by
  unfold compiler_bswap16
  cases gnucAtLeast_4_8 c <;> rfl

theorem compiler_bswap32_isSome (c : Build) :
    (compiler_bswap32 c).isSome = gnucAtLeast_4_3 c := by
  unfold compiler_bswap32
  cases gnucAtLeast_4_3 c <;> rfl

theorem compiler_bswap64_isSome (c : Build) :
    (compiler_bswap64 c).isSome = gnucAtLeast_4_3 c := by
  unfold compiler_bswap64
  cases gnucAtLeast_4_3 c <;> rfl

/-- C18. Whether the header defines the byte-swap macros is decided by the
compiler version `(__GNUC__, __GNUC_MINOR__)` alone: `compiler_bswap32` and
`compiler_bswap64` are defined exactly when the version is at least 4.3 and
`compiler_bswap16` exactly when it is at least 4.8; so wherever
`compiler_bswap16` is defined the other two are, and on every version 4.3 to
4.7 the 32- and 64-bit macros are defined and the 16-bit one is not. -/
theorem bswap_availability :
    (∀ c : Build,
        ((compiler_bswap32 c).isSome = true ↔ versionAtLeast c.version 4 3)
        ∧ ((compiler_bswap64 c).isSome = true ↔ versionAtLeast c.version 4 3)
        ∧ ((compiler_bswap16 c).isSome = true ↔ versionAtLeast c.version 4 8))
    ∧ (∀ c1 c2 : Build, c1.version = c2.version →
        (compiler_bswap16 c1).isSome = (compiler_bswap16 c2).isSome
        ∧ (compiler_bswap32 c1).isSome = (compiler_bswap32 c2).isSome
        ∧ (compiler_bswap64 c1).isSome = (compiler_bswap64 c2).isSome)
    ∧ (∀ c : Build, (compiler_bswap16 c).isSome = true →
        (compiler_bswap32 c).isSome = true ∧ (compiler_bswap64 c).isSome = true)
    ∧ (∀ c : Build, c.gnuc = 4 → 3 ≤ c.gnucMinor → c.gnucMinor ≤ 7 →
        (compiler_bswap32 c).isSome = true ∧ (compiler_bswap64 c).isSome = true
        ∧ compiler_bswap16 c = none)
    ∧ (∃ c : Build, (compiler_bswap32 c).isSome = true ∧ (compiler_bswap64 c).isSome = true
        ∧ compiler_bswap16 c = none) := by
  have key : ∀ c : Build,
      ((compiler_bswap32 c).isSome = true ↔ versionAtLeast c.version 4 3)
      ∧ ((compiler_bswap64 c).isSome = true ↔ versionAtLeast c.version 4 3)
      ∧ ((compiler_bswap16 c).isSome = true ↔ versionAtLeast c.version 4 8) := fun c =>
    ⟨by rw [compiler_bswap32_isSome]; exact gnucAtLeast_4_3_iff c,
     by rw [compiler_bswap64_isSome]; exact gnucAtLeast_4_3_iff c,
     by rw [compiler_bswap16_isSome]; exact gnucAtLeast_4_8_iff c⟩
  have mid : ∀ c : Build, c.gnuc = 4 → 3 ≤ c.gnucMinor → c.gnucMinor ≤ 7 →
      (compiler_bswap32 c).isSome = true ∧ (compiler_bswap64 c).isSome = true
      ∧ compiler_bswap16 c = none := by
    intro c hM h3 h7
    refine ⟨(key c).1.mpr ?_, (key c).2.1.mpr ?_, ?_⟩
    · rw [versionAtLeast_iff]; omega
    · rw [versionAtLeast_iff]; omega
    · have hno : ¬ versionAtLeast c.version 4 8 := by rw [versionAtLeast_iff]; omega
      have h16 : ¬ (compiler_bswap16 c).isSome = true := fun h => hno ((key c).2.2.mp h)
      cases hc : compiler_bswap16 c with
      | none => rfl
      | some f => rw [hc] at h16; exact absurd rfl h16
  refine ⟨key, ?_, ?_, mid, ⟨⟨4, 5, false, .little, false, false, false⟩, ?_⟩⟩
  · intro c1 c2 hv
    have h3 : gnucAtLeast_4_3 c1 = gnucAtLeast_4_3 c2 := by
      rw [Bool.eq_iff_iff, gnucAtLeast_4_3_iff, gnucAtLeast_4_3_iff, hv]
    have h8 : gnucAtLeast_4_8 c1 = gnucAtLeast_4_8 c2 := by
      rw [Bool.eq_iff_iff, gnucAtLeast_4_8_iff, gnucAtLeast_4_8_iff, hv]
    simp only [compiler_bswap16_isSome, compiler_bswap32_isSome, compiler_bswap64_isSome, h3, h8,
      and_self]
  · intro c h16
    have h8 := (key c).2.2.mp h16
    rw [versionAtLeast_iff] at h8
    refine ⟨(key c).1.mpr ?_, (key c).2.1.mpr ?_⟩
    · rw [versionAtLeast_iff]; omega
    · rw [versionAtLeast_iff]; omega
  · exact mid _ rfl (by decide) (by decide)

/-- Witness for C18: a gcc 4.5 build defines the 32- and 64-bit macros and
not the 16-bit one. -/
theorem bswap_availability_witness :
    (compiler_bswap32 ⟨4, 5, true, .little, true, false, false⟩).isSome = true
    ∧ (compiler_bswap64 ⟨4, 5, true, .little, true, false, false⟩).isSome = true
    ∧ compiler_bswap16 ⟨4, 5, true, .little, true, false, false⟩ = none :=
  bswap_availability.2.2.2.1 ⟨4, 5, true, .little, true, false, false⟩ rfl (by decide) (by decide)

end CompilerGcc
